import Mathlib

/-!
# Verification of the zxcvbn guess-estimation core (`src/scoring.rs`)

A shallow embedding of the scoring module of the password-strength
estimator, together with proofs about the claims of the specification.

Modelling conventions:

* Rust `u64`/`usize` arithmetic (64-bit on the reference platform) is modelled
  on `Nat` with explicit wrapping (`% 2^64`), matching the release-profile
  semantics of overflowing operations (`w64`, `mul64`, `add64`, `pow64`).
  Casts `as u32` on exponents are modelled by `% 2^32` (`powU`).
* Rust `i16` arithmetic is modelled on `Int` with explicit wrapping into
  `[-2^15, 2^15)` (`w16`), again the release-profile semantics; the
  debug profile would abort at the same inputs instead.
* Fallible code (panicking indexing, `unwrap`, `unreachable!`) is modelled
  with `Option`: `none` is an aborted (or non-returning) execution.
* Strings are modelled as `List Char`; the byte-level slicing of the source
  coincides with character slicing on ASCII data, which is all the claims
  exercise.
-/

namespace Scoring

/-- `2^64`, the modulus of `u64`/`usize` arithmetic. -/
def U64 : Nat := 18446744073709551616

/-- `u64::MAX`. -/
def U64MAX : Nat := 18446744073709551615

/-- `2^32`, the modulus of the `as u32` casts applied to exponents. -/
def U32 : Nat := 4294967296

/-- Wrap a natural number into `u64` range (release-profile overflow). -/
def w64 (x : Nat) : Nat := x % U64

/-- Wrapping `u64` multiplication. -/
def mul64 (a b : Nat) : Nat := w64 (a * b)

/-- Wrapping `u64` addition. -/
def add64 (a b : Nat) : Nat := w64 (a + b)

/-- Wrapping `u64` power (`u64::pow` with release-profile overflow). -/
def pow64 (b : Nat) : Nat → Nat
  | 0 => 1
  | e + 1 => mul64 (pow64 b e) b

/-- `b.pow(e as u32)`: the exponent is truncated to 32 bits by the cast. -/
def powU (b e : Nat) : Nat := pow64 b (e % U32)

/-- Wrapping `u64` sum (`Iterator::sum` on `u64`). -/
def sum64 (l : List Nat) : Nat := l.foldl add64 0

/-- Wrap an integer into `i16` range (release-profile overflow). -/
def w16 (x : Int) : Int := (x + 32768) % 65536 - 32768

/-- `i16::abs` (wrapping: `(-32768).abs()` wraps back to `-32768`). -/
def i16abs (x : Int) : Int := w16 (Int.natAbs x)

/-- The cast `i16 as u64`: sign-extension reinterpreted as unsigned. -/
def u64cast (x : Int) : Nat := (x % (U64 : Int)).toNat

/-- Modelled from the spec: the `Match` record of the matcher collaborator
(`super::matching::Match`, whose source file is not part of the scoring
module).  Fields are the semantic fields of §3 of the specification: the
pattern tag, inclusive indices `i ≤ j`, the matched token, the optional
cached guess estimate, and the pattern-specific fields populated by the
matcher and read (or, for the three `*_variations` fields, written) by the
corresponding estimator.  `Match::default()` is the record with all fields
at their default values. -/
structure Match where
  pattern : String := ""
  token : List Char := []
  i : Nat := 0
  j : Nat := 0
  guesses : Option Nat := none
  rank : Option Nat := none
  reversed : Bool := false
  l33t : Bool := false
  sub : Option (List (Char × Char)) := none
  base_guesses : Option Nat := none
  uppercase_variations : Option Nat := none
  l33t_variations : Option Nat := none
  graph : Option String := none
  turns : Option Nat := none
  shifted_count : Option Nat := none
  repeat_count : Option Nat := none
  ascending : Option Bool := none
  regex_name : Option String := none
  regex_match : Option (List String) := none
  year : Option Int := none
  separator : Option String := none
  deriving Repr, DecidableEq

instance : Inhabited Match := ⟨{}⟩

/-- `Match::default()`. -/
def Match.default : Match := {}

/-- The slice `password[i..=j]` (character-level model of the source's
byte-level `&password[i..(j + 1)]`). -/
def slice (pw : List Char) (i j : Nat) : List Char := (pw.drop i).take (j + 1 - i)

/-! ## Constants (`src/scoring.rs` lines 31-36) -/

def REFERENCE_YEAR : Int := 2000
def MIN_YEAR_SPACE : Int := 20
def BRUTEFORCE_CARDINALITY : Nat := 10
def MIN_GUESSES_BEFORE_GROWING_SEQUENCE : Nat := 10000
def MIN_SUBMATCH_GUESSES_SINGLE_CHAR : Nat := 10
def MIN_SUBMATCH_GUESSES_MULTI_CHAR : Nat := 50

/-! ## Combinatorics helpers -/

/-- `factorial(n)`: `(2..(n + 1)).fold(1, |acc, x| acc * x)` in wrapping
`usize` arithmetic. -/
def factorial (n : Nat) : Nat :=
  if n < 2 then 1 else (List.range' 2 (n - 1)).foldl mul64 1

/-- The running-product loop of `n_ck`: for each divisor `d` in `ds`,
multiply the accumulator `r` by the current `n` (checked: on `usize`
overflow the whole function returns `u64::MAX`), divide by `d`, and
decrement `n`. -/
def nCkGo : Nat → List Nat → Nat → Nat
  | _, [], r => r
  | n, d :: ds, r => if r * n < U64 then nCkGo (n - 1) ds (r * n / d) else U64MAX

/-- `n_ck(n, k)`: binomial coefficient by the running-product form, with
`checked_mul` saturation to `u64::MAX` on overflow. -/
def n_ck (n k : Nat) : Nat :=
  if k > n then 0
  else if k = 0 then 1
  else nCkGo n (List.range' 1 k) 1

/-! ## Estimators -/

/-- Modelled from the spec: the aggregate statistics the core reads from the
external adjacency-graph tables (`KEYBOARD_STARTING_POSITIONS`,
`KEYBOARD_AVERAGE_DEGREE`, `KEYPAD_STARTING_POSITIONS`,
`KEYPAD_AVERAGE_DEGREE`).  The tables themselves are an external
collaborator, so the whole development is parameterised over these four
numbers. -/
structure AdjacencyStats where
  keyboardStartingPositions : Nat
  keyboardAverageDegree : Nat
  keypadStartingPositions : Nat
  keypadAverageDegree : Nat
  deriving Repr, DecidableEq

/-- `BruteForceEstimator::estimate`. -/
def bruteforceEstimate (m : Match) : Nat :=
  let guesses := powU BRUTEFORCE_CARDINALITY m.token.length
  let min_guesses := if m.token.length = 1
    then MIN_SUBMATCH_GUESSES_SINGLE_CHAR + 1
    else MIN_SUBMATCH_GUESSES_MULTI_CHAR + 1
  max guesses min_guesses

/-- `uppercase_variations`.  `none` models the panicking `unwrap` on an
empty token (unreachable there: the branch requires an uppercase char).
Character case tests follow the source's Unicode predicates, restricted to
the behaviour they share with Lean's `Char` API (identical on ASCII). -/
def uppercase_variations (m : Match) : Option Nat :=
  let word := m.token
  if word.all Char.isLower || word.map Char.toLower = word then some 1
  else
    match word.head?, word.getLast? with
    | some first, some last =>
      if first.isUpper || last.isUpper || word.all Char.isUpper then some 2
      else
        let upper := (word.filter Char.isUpper).length
        let lower := (word.filter Char.isLower).length
        some (sum64 ((List.range' 1 (min upper lower)).map (fun i => n_ck (upper + lower) i)))
    | _, _ => none

/-- `l33t_variations`.  The substitution table is iterated as a list; the
product is order-independent. -/
def l33t_variations (m : Match) : Option Nat :=
  if !m.l33t then some 1
  else
    match m.sub with
    | none => none
    | some subs =>
      some (subs.foldl (fun variations p =>
        let token := m.token.map Char.toLower
        let subbed := (token.filter (fun c => c = p.1)).length
        let unsubbed := (token.filter (fun c => c = p.2)).length
        if subbed = 0 || unsubbed = 0 then mul64 variations 2
        else
          let p2 := min unsubbed subbed
          let possibilities := sum64 ((List.range' 1 p2).map (fun i => n_ck (unsubbed + subbed) i))
          mul64 variations possibilities) 1)

/-- `DictionaryEstimator::estimate`.  Mutates the match: it stores
`base_guesses`, `uppercase_variations` and `l33t_variations` before
unwrapping them, so the updated match is returned alongside the result. -/
def dictionaryEstimate (m : Match) : Option (Nat × Match) :=
  match m.rank, uppercase_variations m, l33t_variations m with
  | some rank, some uv, some lv =>
    some (mul64 (mul64 (mul64 rank uv) lv) (if m.reversed then 2 else 1),
      { m with base_guesses := some rank, uppercase_variations := some uv,
               l33t_variations := some lv })
  | _, _, _ => none

/-- `SpatialEstimator::estimate`. -/
def spatialEstimate (stats : AdjacencyStats) (m : Match) : Option Nat :=
  match m.graph, m.turns with
  | some graph, some turns =>
    let sd := if graph = "qwerty" || graph = "dvorak"
      then (stats.keyboardStartingPositions, stats.keyboardAverageDegree)
      else (stats.keypadStartingPositions, stats.keypadAverageDegree)
    let len := m.token.length
    let guesses := (List.range' 2 (len - 1)).foldl (fun acc i =>
      let possible_turns := min turns (i - 1)
      (List.range' 1 possible_turns).foldl (fun acc2 j =>
        add64 acc2 (mul64 (mul64 (n_ck (i - 1) (j - 1)) sd.1) (powU sd.2 j))) acc) 0
    match m.shifted_count with
    | none => some guesses
    | some shifted_count =>
      let unshifted_count := len - shifted_count
      if shifted_count = 0 || unshifted_count = 0 then some (mul64 guesses 2)
      else
        let shifted_variations := sum64 ((List.range' 1 (min shifted_count unshifted_count)).map
          (fun i => n_ck (shifted_count + unshifted_count) i))
        some (mul64 guesses shifted_variations)
  | _, _ => none

/-- `RepeatEstimator::estimate`. -/
def repeatEstimate (m : Match) : Option Nat :=
  match m.base_guesses, m.repeat_count with
  | some bg, some rc => some (mul64 bg rc)
  | _, _ => none

/-- `SequenceEstimator::estimate`. -/
def sequenceEstimate (m : Match) : Option Nat :=
  match m.token.head? with
  | none => none
  | some first_chr =>
    let base_guesses : Nat :=
      if ['a', 'A', 'z', 'Z', '0', '1', '9'].contains first_chr then 4
      else if first_chr.isDigit then 10
      else 26
    let base_guesses := if !(m.ascending.getD false) then mul64 base_guesses 2 else base_guesses
    some (mul64 base_guesses m.token.length)

/-- The `CHAR_CLASS_BASES` table. -/
def CHAR_CLASS_BASES : List (String × Nat) :=
  [("alpha_lower", 26), ("alpha_upper", 26), ("alpha", 52),
   ("alphanumeric", 62), ("digits", 10), ("symbols", 33)]

/-- Rust's `str::parse::<i16>`: optional sign, at least one digit, error on
any other character or on a value outside `i16` range. -/
def parseI16 (s : String) : Option Int :=
  let go : Bool → List Char → Option Int := fun neg ds =>
    if ds.isEmpty || !ds.all Char.isDigit then none
    else
      let v : Nat := ds.foldl (fun a c => a * 10 + (c.toNat - 48)) 0
      let iv : Int := if neg then -(v : Int) else (v : Int)
      if -32768 ≤ iv ∧ iv ≤ 32767 then some iv else none
  match s.toList with
  | [] => none
  | '+' :: ds => go false ds
  | '-' :: ds => go true ds
  | ds => go false ds

/-- `RegexEstimator::estimate`.  The `unreachable!` arm for unknown
`regex_name` is `none`. -/
def regexEstimate (m : Match) : Option Nat :=
  match m.regex_name with
  | none => none
  | some name =>
    match CHAR_CLASS_BASES.lookup name with
    | some base => some (powU base m.token.length)
    | none =>
      if name = "recent_year" then
        match m.regex_match with
        | none => none
        | some rm =>
          match rm.head? with
          | none => none
          | some s =>
            match parseI16 s with
            | none => none
            | some y =>
              let year_space := i16abs (w16 (y - REFERENCE_YEAR))
              some (u64cast (max year_space MIN_YEAR_SPACE))
      else none

/-- `DateEstimator::estimate`.  All arithmetic is `i16` in the source and is
modelled with explicit 16-bit wrapping. -/
def dateEstimate (m : Match) : Option Nat :=
  match m.year with
  | none => none
  | some year =>
    let year_space := max (i16abs (w16 (year - REFERENCE_YEAR))) MIN_YEAR_SPACE
    let guesses := w16 (year_space * 365)
    let guesses := if m.separator.isSome then w16 (guesses * 4) else guesses
    some (u64cast guesses)

/-- The `ESTIMATION_FUNCTIONS` registry: dispatch on the pattern tag; an
unknown tag is the panicking `unwrap` on `find`.  Estimators receive the
match mutably; the ones that do not write to it return it unchanged. -/
def dispatchEstimate (stats : AdjacencyStats) (m : Match) : Option (Nat × Match) :=
  if m.pattern = "bruteforce" then some (bruteforceEstimate m, m)
  else if m.pattern = "dictionary" then dictionaryEstimate m
  else if m.pattern = "spatial" then (spatialEstimate stats m).map (fun g => (g, m))
  else if m.pattern = "repeat" then (repeatEstimate m).map (fun g => (g, m))
  else if m.pattern = "sequence" then (sequenceEstimate m).map (fun g => (g, m))
  else if m.pattern = "regex" then (regexEstimate m).map (fun g => (g, m))
  else if m.pattern = "date" then (dateEstimate m).map (fun g => (g, m))
  else none

/-- `estimate_guesses`: return a cached estimate verbatim; otherwise
dispatch to the pattern's estimator, clamp from below by the submatch
floor, and cache the clamped value on the match.  Returns the value and
the (possibly mutated) match. -/
def estimate_guesses (stats : AdjacencyStats) (pw : List Char) (m : Match) :
    Option (Nat × Match) :=
  match m.guesses with
  | some guesses => some (guesses, m)
  | none =>
    let min_guesses := if m.token.length < pw.length then
        if m.token.length = 1 then MIN_SUBMATCH_GUESSES_SINGLE_CHAR
        else MIN_SUBMATCH_GUESSES_MULTI_CHAR
      else 1
    match dispatchEstimate stats m with
    | none => none
    | some (guesses, m1) =>
      let v := max guesses min_guesses
      some (v, { m1 with guesses := some v })

/-! ## The dynamic-programming search -/

/-- One cell of the DP tables: the final match of the best length-`l`
sequence covering the prefix up to `k`, its guess product `pi`, and the
overall metric `g`.  The source keeps three parallel `HashMap`s
(`optimal.m`, `optimal.pi`, `optimal.g`) that always share one key set
(entries are only ever inserted into all three at once), modelled here as
one association list per end-index. -/
structure Entry where
  m : Match
  pi : Nat
  g : Nat
  deriving Repr, DecidableEq

/-- The per-end-index DP table (`HashMap<usize, _>`), as an association
list keyed by sequence length. -/
abbrev OMap := List (Nat × Entry)

/-- The `Optimal` record: one table per inclusive end-index. -/
abbrev Optimal := List OMap

/-- `HashMap` lookup (`map[&l]`, as an `Option`). -/
def lookupA (l : Nat) : OMap → Option Entry
  | [] => none
  | (l', e) :: rest => if l' = l then some e else lookupA l rest

/-- `HashMap` insert-or-overwrite (`*map.entry(l).or_insert(_) = e`):
replaces in place, appends a fresh key at the end. -/
def insertA (l : Nat) (e : Entry) : OMap → OMap
  | [] => [(l, e)]
  | (l', e') :: rest => if l' = l then (l, e) :: rest else (l', e') :: insertA l e rest

/-- The `update` helper: considers a length-`l` sequence ending at match
`m`.  `none` models the panics of the out-of-range `Vec` indexing, of the
missing-key `HashMap` indexing, and of `estimate_guesses`.  The pruning
loop over `optimal.g[k]` returns early on the first competing entry with
`competing_l ≤ l` and `competing_g ≤ g`, i.e. exactly when one exists.
Every call in the search has `l ≥ 1`, where the `usize` subtraction
`l - 1` agrees with the Nat subtraction used here. -/
def update (stats : AdjacencyStats) (pw : List Char) (ea : Bool) (m : Match) (l : Nat)
    (opt : Optimal) : Option Optimal :=
  match estimate_guesses stats pw m with
  | none => none
  | some (pi0, m1) =>
    let pstep : Option Nat :=
      if 1 < l then
        match opt[m1.i - 1]? with
        | none => none
        | some prev =>
          match lookupA (l - 1) prev with
          | none => none
          | some e => some (mul64 pi0 e.pi)
      else some pi0
    match pstep with
    | none => none
    | some piv =>
      let base := mul64 (factorial l) piv
      let gv := if ea then base else add64 base (powU MIN_GUESSES_BEFORE_GROWING_SEQUENCE (l - 1))
      match opt[m.j]? with
      | none => none
      | some gk =>
        if gk.any (fun p => decide (p.1 ≤ l) && decide (p.2.g ≤ gv)) then some opt
        else some (opt.set m.j (insertA l ⟨m1, piv, gv⟩ gk))

/-- `make_bruteforce_match(i, j)`. -/
def make_bruteforce_match (i j : Nat) (pw : List Char) : Match :=
  { Match.default with pattern := "bruteforce", token := slice pw i j, i := i, j := j }

/-- `bruteforce_update(k)`: try a single bruteforce match spanning the
whole prefix, then extensions of every sequence ending at `i - 1` by a
bruteforce match spanning `i..=k`, skipping sequences that already end in
a bruteforce match. -/
def bruteforce_update (stats : AdjacencyStats) (k : Nat) (pw : List Char) (opt : Optimal)
    (ea : Bool) : Option Optimal :=
  match update stats pw ea (make_bruteforce_match 0 k pw) 1 opt with
  | none => none
  | some opt1 =>
    (List.range' 1 k).foldlM (fun o i =>
      let m := make_bruteforce_match i k pw
      match o[i - 1]? with
      | none => none
      | some prev =>
        prev.foldlM (fun o2 p =>
          if p.2.m.pattern = "bruteforce" then some o2
          else update stats pw ea m (p.1 + 1) o2) o) opt1

/-- One genuine match of the main loop: extend every sequence ending just
before `m` (snapshot of the key set), or try `m` as a singleton. -/
def matchStep (stats : AdjacencyStats) (pw : List Char) (ea : Bool) (opt : Optimal)
    (m : Match) : Option Optimal :=
  if 0 < m.i then
    match opt[m.i - 1]? with
    | none => none
    | some prev => (prev.map Prod.fst).foldlM (fun o l => update stats pw ea m (l + 1) o) opt
  else update stats pw ea m 1 opt

/-- One iteration of the main loop: all genuine matches ending at `k`,
then bruteforce filling. -/
def processIndex (stats : AdjacencyStats) (pw : List Char) (ea : Bool) (opt : Optimal)
    (k : Nat) (bucket : List Match) : Option Optimal :=
  match bucket.foldlM (matchStep stats pw ea) opt with
  | none => none
  | some opt1 => bruteforce_update stats k pw opt1 ea

/-- Stable insertion into a list sorted by starting index (an element is
placed before every element with a key not smaller than its own). -/
def insertByI (m : Match) : List Match → List Match
  | [] => [m]
  | x :: xs => if x.i < m.i then x :: insertByI m xs else m :: x :: xs

/-- The stable sort by `i` applied to each sublist (`sort_by_key(|m| m.i)`,
a stable sort in Rust). -/
def sortByI : List Match → List Match
  | [] => []
  | x :: xs => insertByI x (sortByI xs)

/-- Partition the matches into sublists by ending index `j`
(`matches_by_j[m.j].push(m.clone())`); an out-of-range `j` is the
panicking `Vec` indexing. -/
def buildBuckets (n : Nat) (ms : List Match) : Option (List (List Match)) :=
  ms.foldlM (fun bs m =>
    match bs[m.j]? with
    | none => none
    | some b => some (bs.set m.j (b ++ [m]))) (List.replicate n [])

/-- The linear scan for the final best sequence length and score: the
first strict minimum over the iteration order.  The source iterates a
`std::collections::HashMap` here, whose iteration order is randomized per
process and unrelated to insertion order; this model presents the entries
in insertion order, which is one possible order among those the source
may use.  Consequently, when two lengths tie on `g`, the source's choice
depends on the process's hash seed — see `c4_counterexample`, which
exhibits a reachable tied table whose two orderings unwind to different
sequences. -/
def unwindFindBest (gk : OMap) : Option (Nat × Nat) :=
  gk.foldl (fun acc p =>
    match acc with
    | none => some (p.1, p.2.g)
    | some (l0, g0) => if p.2.g < g0 then some (p.1, p.2.g) else some (l0, g0)) none

/-- The backwards walk of `unwind`.  The source's unbounded `loop` is given
`n` steps of fuel; running out models a non-returning execution (with the
invariants proved below it never does on states the search produces). -/
def unwindLoop (opt : Optimal) : Nat → Nat → Nat → List Match → Option (List Match)
  | 0, _, _, _ => none
  | fuel + 1, k, l, acc =>
    match opt[k]? with
    | none => none
    | some mk =>
      match lookupA l mk with
      | none => none
      | some e =>
        if e.m.i = 0 then some (e.m :: acc)
        else unwindLoop opt fuel (e.m.i - 1) (l - 1) (e.m :: acc)

/-- `unwind(n)`: pick the best length at the last index and walk backwards.
For `n = 0` the source computes `k = n - 1` in `usize` (which underflows)
and indexes the empty `optimal.g` table out of range: the failing lookup
models that panic. -/
def unwind (n : Nat) (opt : Optimal) : Option (List Match) :=
  let k := n - 1
  match opt[k]? with
  | none => none
  | some gk =>
    match unwindFindBest gk with
    | none => none
    | some (l, _) => unwindLoop opt n k l []

/-- `(guesses as f64).log10() as u16`: the order of magnitude of `guesses`.
Exact floor of log₁₀ for positive arguments (and `0` at `0`, like the
saturating float-to-int cast of `-inf`); the float computation agrees with
this on all values the claims exercise. -/
def guessesLog10 (g : Nat) : Nat := (Nat.toDigits 10 g).length - 1

/-- The result record. -/
structure GuessCalculation where
  guesses : Nat
  guesses_log10 : Nat
  sequence : List Match
  deriving Repr, DecidableEq

/-- The main loop of the search: `for (k, match_by_j) in
matches_by_j.iter().enumerate()`, processing each end-index in ascending
order starting from the empty tables. -/
def mainDP (stats : AdjacencyStats) (pw : List Char) (ea : Bool)
    (matches_by_j : List (List Match)) : Option Optimal :=
  matches_by_j.enum.foldlM (fun o kb => processIndex stats pw ea o kb.1 kb.2)
    (List.replicate pw.length ([] : OMap))

/-- `most_guessable_match_sequence`. -/
def most_guessable_match_sequence (stats : AdjacencyStats) (password : List Char)
    (ms : List Match) (exclude_additive : Bool) : Option GuessCalculation :=
  let n := password.length
  match buildBuckets n ms with
  | none => none
  | some bs =>
    match mainDP stats password exclude_additive (bs.map sortByI) with
    | none => none
    | some opt =>
      match unwind n opt with
      | none => none
      | some optimal_match_sequence =>
        let optimal_l := optimal_match_sequence.length
        let guesses? : Option Nat :=
          if password.isEmpty then some 1
          else
            match opt[n - 1]? with
            | none => none
            | some gk =>
              match lookupA optimal_l gk with
              | none => none
              | some e => some e.g
        match guesses? with
        | none => none
        | some guesses =>
          some { guesses := guesses, guesses_log10 := guessesLog10 guesses,
                 sequence := optimal_match_sequence }

/-! ## Arithmetic lemmas about the wrapping model -/

theorem U64_eq_pow : U64 = 2 ^ 64 := by decide

theorem pow64_eq (b e : Nat) : pow64 b e = b ^ e % U64 := by
  induction e with
  | zero => simp [pow64, w64, U64]
  | succ n ih =>
    simp only [pow64, mul64, w64, ih, pow_succ]
    rw [Nat.mod_mul_mod]

theorem foldl_mul64_mod (l : List Nat) : ∀ a : Nat,
    l.foldl mul64 (a % U64) = (l.foldl (· * ·) a) % U64 := by
  induction l with
  | nil => intro a; rfl
  | cons x xs ih =>
    intro a
    simp only [List.foldl_cons]
    have h : mul64 (a % U64) x = (a * x) % U64 := by
      simp [mul64, w64, Nat.mod_mul_mod]
    rw [h]
    exact ih (a * x)

theorem range'_foldl_mul_eq_factorial :
    ∀ n : Nat, (List.range' 2 n).foldl (· * ·) 1 = Nat.factorial (n + 1) := by
  intro n
  induction n with
  | zero => simp [Nat.factorial]
  | succ n ih =>
    rw [List.range'_concat, List.foldl_append, ih]
    simp only [List.foldl_cons, List.foldl_nil]
    rw [Nat.factorial_succ (n + 1)]
    ring

theorem factorial_eq (n : Nat) : factorial n = Nat.factorial n % U64 := by
  unfold factorial
  by_cases h : n < 2
  · interval_cases n <;> decide
  · have key := foldl_mul64_mod (List.range' 2 (n - 1)) 1
    rw [show (1 : Nat) % U64 = 1 from by decide] at key
    rw [if_neg h, key, range'_foldl_mul_eq_factorial]
    have h2 : n - 1 + 1 = n := by omega
    rw [h2]

/-! ## C1 — empty password -/

/-- C1: the claim states that for the empty password
`most_guessable_match_sequence` returns the degenerate result
`{guesses = 1, log10 = 0, sequence = []}` without aborting.  In fact the
code calls `unwind` *before* its empty-password branch; `unwind` computes
`k = n - 1` in `usize` (underflow for `n = 0`) and indexes the empty
`optimal.g` table, so the call aborts for every match list and either
flag.  (The `if password.is_empty()` branch at line 177 shows the intended
behaviour, which is exactly what the claim describes.) -/
theorem c1_empty_password_aborts (stats : AdjacencyStats) (ms : List Match) (ea : Bool) :
    most_guessable_match_sequence stats [] ms ea = none := by
  cases ms with
  | nil => rfl
  | cons m rest =>
    simp [most_guessable_match_sequence, buildBuckets, List.foldlM]

/-! ## C5 — the binomial helper `n_ck` -/

theorem choose_mul_sub_div (N j : Nat) :
    Nat.choose N j * (N - j) / (j + 1) = Nat.choose N (j + 1) := by
  rw [← Nat.choose_succ_right_eq]
  exact Nat.mul_div_cancel _ (Nat.succ_pos j)

theorem nCkGo_exact (N : Nat) : ∀ (len j : Nat),
    (∀ t, j ≤ t → t < j + len → Nat.choose N t * (N - t) < U64) →
    nCkGo (N - j) (List.range' (j + 1) len) (Nat.choose N j) = Nat.choose N (j + len) := by
  intro len
  induction len with
  | zero => intro j _; simp [nCkGo]
  | succ n ih =>
    intro j h
    rw [List.range'_succ]
    unfold nCkGo
    have hlt : Nat.choose N j * (N - j) < U64 := h j le_rfl (by omega)
    rw [if_pos hlt]
    have hsub : N - j - 1 = N - (j + 1) := by omega
    rw [hsub, choose_mul_sub_div]
    have := ih (j + 1) (fun t ht1 ht2 => h t (by omega) (by omega))
    rw [this]
    congr 1
    omega

theorem nCkGo_saturates (N : Nat) : ∀ (len j : Nat),
    (∃ t, j ≤ t ∧ t < j + len ∧ U64 ≤ Nat.choose N t * (N - t)) →
    nCkGo (N - j) (List.range' (j + 1) len) (Nat.choose N j) = U64MAX := by
  intro len
  induction len with
  | zero => intro j ⟨t, ht1, ht2, _⟩; omega
  | succ n ih =>
    intro j ⟨t, ht1, ht2, ht3⟩
    rw [List.range'_succ]
    unfold nCkGo
    by_cases hlt : Nat.choose N j * (N - j) < U64
    · rw [if_pos hlt]
      have hsub : N - j - 1 = N - (j + 1) := by omega
      rw [hsub, choose_mul_sub_div]
      apply ih (j + 1)
      refine ⟨t, ?_, by omega, ht3⟩
      rcases Nat.eq_or_lt_of_le ht1 with rfl | h
      · omega
      · omega
    · rw [if_neg hlt]

/-- Decidable test for an intermediate `checked_mul` overflow in the
running product of `n_ck n k`: the `d`-th multiplication computes
`C(n, d-1) * (n - d + 1)`. -/
def nCkOverflowB (n k : Nat) : Bool :=
  (List.range k).any (fun t => decide (U64 ≤ Nat.choose n t * (n - t)))

/-- C5: `n_ck` returns `0` for `k > n`, `1` for `k = 0`, the exact binomial
coefficient when no intermediate multiplication overflows, `u64::MAX` when
one does (it never aborts — it is a total function), and the concrete
values listed in the claim. -/
theorem c5_n_ck_spec :
    (∀ n k : Nat, n < k → n_ck n k = 0) ∧
    (∀ n : Nat, n_ck n 0 = 1) ∧
    (∀ n k : Nat, 1 ≤ k → k ≤ n → nCkOverflowB n k = false → n_ck n k = Nat.choose n k) ∧
    (∀ n k : Nat, 1 ≤ k → k ≤ n → nCkOverflowB n k = true → n_ck n k = U64MAX) ∧
    n_ck 0 0 = 1 ∧ n_ck 5 0 = 1 ∧ n_ck 0 5 = 0 ∧ n_ck 2 1 = 2 ∧ n_ck 4 2 = 6 ∧
    n_ck 33 7 = 4272048 := by
  refine ⟨?_, ?_, ?_, ?_, by decide, by decide, by decide, by decide, by decide, by decide⟩
  · intro n k h
    simp [n_ck, h]
  · intro n
    simp [n_ck]
  · intro n k h1 h2 hov
    have hall : ∀ t, 0 ≤ t → t < 0 + k → Nat.choose n t * (n - t) < U64 := by
      intro t _ ht
      have := List.any_eq_false.mp hov t (List.mem_range.mpr (by omega))
      simpa using this
    have hgo := nCkGo_exact n k 0 hall
    simp only [Nat.sub_zero, Nat.choose_zero_right, Nat.zero_add] at hgo
    unfold n_ck
    rw [if_neg (by omega), if_neg (by omega)]
    exact hgo
  · intro n k h1 h2 hov
    rcases List.any_eq_true.mp hov with ⟨t, htm, htp⟩
    have hex : ∃ t, 0 ≤ t ∧ t < 0 + k ∧ U64 ≤ Nat.choose n t * (n - t) := by
      refine ⟨t, by omega, by simpa using List.mem_range.mp htm, by simpa using htp⟩
    have hgo := nCkGo_saturates n k 0 hex
    simp only [Nat.sub_zero, Nat.choose_zero_right] at hgo
    unfold n_ck
    rw [if_neg (by omega), if_neg (by omega)]
    exact hgo

/-- C5 witness: the three conditional parts applied at concrete inputs. -/
theorem c5_witness :
    n_ck 2 3 = 0 ∧ n_ck 33 7 = Nat.choose 33 7 ∧ n_ck 80 40 = U64MAX :=
  ⟨c5_n_ck_spec.1 2 3 (by decide),
   c5_n_ck_spec.2.2.1 33 7 (by decide) (by decide) (by decide),
   c5_n_ck_spec.2.2.2.1 80 40 (by decide) (by decide) (by decide)⟩

/-! ## C7 — the bruteforce estimator -/

/-- C7 (amended): for token lengths up to 19 — where `10^len` still fits in
`u64` — the bruteforce estimator returns `max(10^len, floor + 1)` exactly,
i.e. `11` for a single character and at least `51` otherwise. -/
theorem c7_bruteforce_estimate (m : Match) (hlen : m.token.length ≤ 19) :
    bruteforceEstimate m =
      max (10 ^ m.token.length) (if m.token.length = 1 then 11 else 51) := by
  unfold bruteforceEstimate powU BRUTEFORCE_CARDINALITY
  rw [Nat.mod_eq_of_lt (lt_of_le_of_lt hlen (by decide : (19 : Nat) < U32)), pow64_eq]
  have hp : 10 ^ m.token.length ≤ 10 ^ 19 := Nat.pow_le_pow_right (by norm_num) hlen
  rw [Nat.mod_eq_of_lt (by calc 10 ^ m.token.length ≤ 10 ^ 19 := hp
                             _ < U64 := by decide)]
  rfl

/-- C7 witness: the length-1 case. -/
def c7m : Match := { token := ['a'] }

theorem c7_witness :
    bruteforceEstimate c7m =
      max (10 ^ c7m.token.length) (if c7m.token.length = 1 then 11 else 51) :=
  c7_bruteforce_estimate c7m (by decide)

/-- A bruteforce match of token length 20 (a perfectly plausible input: any
password of 20 or more characters produces one). -/
def c7mBig : Match :=
  { pattern := "bruteforce", token := List.replicate 20 'a', i := 0, j := 19 }

/-- C7 counterexample: at token length 20 the power `10^20` no longer fits
in `u64`; the release build wraps (a debug build aborts), so the estimator
does *not* return `max(10^len, floor + 1)` for every bruteforce match. -/
theorem c7_counterexample :
    bruteforceEstimate c7mBig = 7766279631452241920 ∧
    bruteforceEstimate c7mBig ≠
      max (10 ^ c7mBig.token.length) (if c7mBig.token.length = 1 then 11 else 51) := by
  constructor
  · decide
  · decide

/-! ## C9 — the date estimator -/

/-- The date match with year 2600 and no separator (within `i16`, the type
the `Match` record carries the year in). -/
def c9m : Match := { pattern := "date", token := ['2', '6', '0', '0'], i := 0, j := 3,
                     year := some 2600 }

/-- C9: the claim states the date estimator returns
`max(|year - 2000|, 20) * 365` (times 4 with a separator) without aborting
and without leaving 64-bit bounds for every year the `Match` type can
carry.  The code does the arithmetic in `i16`: for year 2600 the claimed
value is `600 * 365 = 219000`, which overflows `i16`; a release build
wraps to `22392` (a debug build aborts).  The claimed value itself fits
64-bit arithmetic comfortably, so the claim describes the evident intent
and the 16-bit arithmetic is the slip. -/
theorem c9_date_i16_overflow :
    dateEstimate c9m = some 22392 ∧
    max (Int.natAbs (2600 - REFERENCE_YEAR)) 20 * 365 = 219000 ∧
    (22392 : Nat) ≠ 219000 := by
  refine ⟨by decide, by decide, by decide⟩

/-- C9 supporting theorem: within the band of years whose claimed value
still fits `i16` (no separator: `1911 ≤ year ≤ 2089`), the estimator does
return the claimed `max(|year - 2000|, 20) * 365`. -/
theorem c9_date_in_range (y : Int) (h1 : 1911 ≤ y) (h2 : y ≤ 2089) :
    dateEstimate { year := some y } =
      some (max (Int.natAbs (y - 2000)) 20 * 365) := by
  have hA : Int.natAbs (y - 2000) ≤ 89 := by omega
  have hred : dateEstimate { year := some y } =
      some (u64cast (w16 (max (i16abs (w16 (y - REFERENCE_YEAR))) MIN_YEAR_SPACE * 365))) := rfl
  have w16a : w16 (y - REFERENCE_YEAR) = y - 2000 := by
    unfold w16 REFERENCE_YEAR
    rw [Int.emod_eq_of_lt (by omega) (by omega)]
    omega
  have w16b : i16abs (y - 2000) = ((Int.natAbs (y - 2000) : Nat) : Int) := by
    unfold i16abs w16
    rw [Int.emod_eq_of_lt (by omega) (by omega)]
    omega
  rw [hred, w16a, w16b]
  set N : Nat := max (Int.natAbs (y - 2000)) 20 with hNdef
  have hN : N ≤ 89 := by omega
  have hmax : max ((Int.natAbs (y - 2000) : Nat) : Int) MIN_YEAR_SPACE = (N : Int) := by
    unfold MIN_YEAR_SPACE
    omega
  rw [hmax]
  have w16c : w16 ((N : Int) * 365) = (N : Int) * 365 := by
    unfold w16
    rw [Int.emod_eq_of_lt (by omega) (by omega)]
    omega
  rw [w16c]
  have hcast : u64cast ((N : Int) * 365) = N * 365 := by
    unfold u64cast U64
    rw [Int.emod_eq_of_lt (by omega) (by omega)]
    omega
  rw [hcast]

/-- C9 witness for the in-range theorem. -/
theorem c9_witness :
    dateEstimate { year := some 1992 } = some (max (Int.natAbs (1992 - 2000)) 20 * 365) :=
  c9_date_in_range 1992 (by decide) (by decide)

/-! ## C10 — pre-set guesses are returned verbatim -/

/-- A caller-supplied match carrying a cached `guesses` value of `0`,
below every documented floor. -/
def c10m : Match := { pattern := "zz", token := ['a', 'b'], i := 0, j := 1,
                      guesses := some 0 }

/-- C10: when `guesses` is already set, `estimate_guesses` returns it
verbatim — no estimator dispatch, no floor — and such a value (even `0`)
flows through the DP product into the final result: on password `"ab"`
with the single full-span match `c10m` carrying `guesses = 0`, the search
returns `guesses = 0` with `c10m` itself as the sequence. -/
theorem c10_preset_guesses_verbatim :
    (∀ (stats : AdjacencyStats) (pw : List Char) (m : Match) (v : Nat),
      m.guesses = some v → estimate_guesses stats pw m = some (v, m)) ∧
    (∀ stats : AdjacencyStats,
      most_guessable_match_sequence stats ['a', 'b'] [c10m] true =
        some { guesses := 0, guesses_log10 := 0, sequence := [c10m] }) := by
  constructor
  · intro stats pw m v h
    unfold estimate_guesses
    rw [h]
  · intro stats
    rfl

/-- C10 witness: the first part applied at a concrete match. -/
theorem c10_witness :
    estimate_guesses ⟨94, 4, 15, 5⟩ ['a', 'b'] c10m = some (0, c10m) :=
  c10_preset_guesses_verbatim.1 ⟨94, 4, 15, 5⟩ ['a', 'b'] c10m 0 rfl

/-! ## C6 — floors and caching in `estimate_guesses` -/

/-- C6: for a match with no cached estimate, `estimate_guesses` dispatches
the pattern's estimator and clamps its result from below by the documented
floor — `1` when the token spans the whole password, `10` for a
single-character token, `50` otherwise — caches the clamped value on the
match, and a second estimation of the returned match yields the same
value and match. -/
theorem c6_floor_and_cache
    (stats : AdjacencyStats) (pw : List Char) (m : Match) (v : Nat) (m' : Match)
    (hg : m.guesses = none)
    (htok : m.token = slice pw m.i m.j)
    (hij : m.i ≤ m.j) (hjn : m.j < pw.length)
    (he : estimate_guesses stats pw m = some (v, m')) :
    ∃ r m2, dispatchEstimate stats m = some (r, m2) ∧
      v = max r (if m.token.length = pw.length then 1
                 else if m.token.length = 1 then MIN_SUBMATCH_GUESSES_SINGLE_CHAR
                 else MIN_SUBMATCH_GUESSES_MULTI_CHAR) ∧
      m' = { m2 with guesses := some v } ∧
      m'.guesses = some v ∧
      estimate_guesses stats pw m' = some (v, m') := by
  have hlen : m.token.length = m.j + 1 - m.i := by
    rw [htok]; unfold slice; rw [List.length_take, List.length_drop]; omega
  have hfloor : (if m.token.length < pw.length then
        if m.token.length = 1 then MIN_SUBMATCH_GUESSES_SINGLE_CHAR
        else MIN_SUBMATCH_GUESSES_MULTI_CHAR
      else 1)
      = (if m.token.length = pw.length then 1
         else if m.token.length = 1 then MIN_SUBMATCH_GUESSES_SINGLE_CHAR
         else MIN_SUBMATCH_GUESSES_MULTI_CHAR) := by
    split_ifs <;> first | rfl | omega
  unfold estimate_guesses at he
  rw [hg] at he
  dsimp only [] at he
  cases hd : dispatchEstimate stats m with
  | none => rw [hd] at he; exact absurd he (by simp)
  | some rm =>
    obtain ⟨r, m2⟩ := rm
    rw [hd] at he
    dsimp only [] at he
    rw [Option.some_inj, Prod.mk.injEq] at he
    obtain ⟨hv, hm'⟩ := he
    subst hv
    subst hm'
    refine ⟨r, m2, rfl, ?_, rfl, rfl, ?_⟩
    · rw [hfloor]
    · unfold estimate_guesses
      rfl

/-- C6 witness: a length-2 sequence match inside a length-3 password; the
sequence estimator returns 16, clamped up to the multi-char floor 50 and
cached. -/
def stats0 : AdjacencyStats := ⟨94, 4, 15, 5⟩

def c6m : Match := { pattern := "sequence", token := ['a', 'b'], i := 0, j := 1 }

theorem c6_witness :
    ∃ r m2, dispatchEstimate stats0 c6m = some (r, m2) ∧
      50 = max r (if c6m.token.length = ['a', 'b', 'c'].length then 1
                  else if c6m.token.length = 1 then MIN_SUBMATCH_GUESSES_SINGLE_CHAR
                  else MIN_SUBMATCH_GUESSES_MULTI_CHAR) ∧
      { c6m with guesses := some 50 } = { m2 with guesses := some 50 } ∧
      ({ c6m with guesses := some 50 } : Match).guesses = some 50 ∧
      estimate_guesses stats0 ['a', 'b', 'c'] { c6m with guesses := some 50 } =
        some (50, { c6m with guesses := some 50 }) :=
  c6_floor_and_cache stats0 ['a', 'b', 'c'] c6m 50 { c6m with guesses := some 50 }
    rfl (by decide) (by decide) (by decide) (by decide)

/-! ## C3 / C4 — the DP update rule -/

/-- The claim's cost metric, in the wrapping 64-bit arithmetic the code
actually performs: `g = (L! · pi + (D^(L-1) if !exclude_additive else 0))
mod 2^64` with `D = MIN_GUESSES_BEFORE_GROWING_SEQUENCE = 10000`. -/
def claimG (ea : Bool) (l piv : Nat) : Nat :=
  (Nat.factorial l * piv +
    if ea then 0 else MIN_GUESSES_BEFORE_GROWING_SEQUENCE ^ (l - 1)) % U64

theorem gv_eq (ea : Bool) (l piv : Nat) (h : l - 1 < U32) :
    (if ea then mul64 (factorial l) piv
     else add64 (mul64 (factorial l) piv)
       (powU MIN_GUESSES_BEFORE_GROWING_SEQUENCE (l - 1)))
    = claimG ea l piv := by
  have hm : mul64 (factorial l) piv = Nat.factorial l * piv % U64 := by
    rw [factorial_eq, mul64, w64, Nat.mod_mul_mod]
  cases ea with
  | true => simp [claimG, hm]
  | false =>
    simp only [if_false, Bool.false_eq_true]
    rw [hm, claimG]
    unfold powU
    rw [Nat.mod_eq_of_lt h, pow64_eq, add64, w64, ← Nat.add_mod]
    simp

/-- Full characterisation of `update` given its lookups: the candidate's
product and metric are computed in wrapping 64-bit arithmetic, the
candidate is discarded exactly when the linear scan finds a stored entry
`(L', g')` with `L' ≤ L` and `g' ≤ g`, and otherwise the triple is stored
at `m.j` under key `l`. -/
theorem update_char
    (stats : AdjacencyStats) (pw : List Char) (ea : Bool) (m : Match) (l : Nat)
    (opt : Optimal) (pi0 : Nat) (m1 : Match) (prev gk : OMap) (e : Entry)
    (hest : estimate_guesses stats pw m = some (pi0, m1))
    (hprev : 1 < l → opt[m1.i - 1]? = some prev ∧ lookupA (l - 1) prev = some e)
    (hgk : opt[m.j]? = some gk) (hl32 : l - 1 < U32) :
    update stats pw ea m l opt =
      some (if gk.any (fun p => decide (p.1 ≤ l) &&
              decide (p.2.g ≤ claimG ea l (if 1 < l then mul64 pi0 e.pi else pi0)))
            then opt
            else opt.set m.j (insertA l ⟨m1, if 1 < l then mul64 pi0 e.pi else pi0,
              claimG ea l (if 1 < l then mul64 pi0 e.pi else pi0)⟩ gk)) := by
  by_cases hl : 1 < l
  · obtain ⟨hp1, hp2⟩ := hprev hl
    simp only [update, hest, if_pos hl, hp1, hp2, hgk]
    rw [gv_eq ea l _ hl32]
    split <;> rfl
  · simp only [update, hest, if_neg hl, hgk]
    rw [gv_eq ea l _ hl32]
    split <;> rfl

/-- C3 (amended): in `update`, the candidate metric is
`g = (L! · pi + (D^(L-1) if !exclude_additive else 0)) mod 2^64` — the
source computes it in wrapping 64-bit arithmetic, not in unbounded
arithmetic as the claim stated — the candidate is discarded iff some
stored `(L', g')` at `k = m.j` with `L' ≤ L` has `g' ≤ g`, and otherwise
`(L, m, pi, g)` is stored at `k` (with the estimated match and the wrapped
product `pi`). -/
theorem c3_update_rule
    (stats : AdjacencyStats) (pw : List Char) (ea : Bool) (m : Match) (l : Nat)
    (opt : Optimal) (pi0 : Nat) (m1 : Match) (prev gk : OMap) (e : Entry)
    (hest : estimate_guesses stats pw m = some (pi0, m1))
    (hprev : 1 < l → opt[m1.i - 1]? = some prev ∧ lookupA (l - 1) prev = some e)
    (hgk : opt[m.j]? = some gk) (hl1 : 1 ≤ l) (hl32 : l - 1 < U32) :
    ((∃ p ∈ gk, p.1 ≤ l ∧
        p.2.g ≤ claimG ea l (if 1 < l then mul64 pi0 e.pi else pi0)) →
      update stats pw ea m l opt = some opt) ∧
    (¬ (∃ p ∈ gk, p.1 ≤ l ∧
        p.2.g ≤ claimG ea l (if 1 < l then mul64 pi0 e.pi else pi0)) →
      update stats pw ea m l opt =
        some (opt.set m.j (insertA l ⟨m1, if 1 < l then mul64 pi0 e.pi else pi0,
          claimG ea l (if 1 < l then mul64 pi0 e.pi else pi0)⟩ gk))) ∧
    claimG ea l (if 1 < l then mul64 pi0 e.pi else pi0) =
      (Nat.factorial l * (if 1 < l then mul64 pi0 e.pi else pi0) +
        if ea then 0 else 10000 ^ (l - 1)) % U64 := by
  have hchar := update_char stats pw ea m l opt pi0 m1 prev gk e hest hprev hgk hl32
  have hany : (gk.any (fun p => decide (p.1 ≤ l) &&
      decide (p.2.g ≤ claimG ea l (if 1 < l then mul64 pi0 e.pi else pi0))) = true)
      ↔ (∃ p ∈ gk, p.1 ≤ l ∧
          p.2.g ≤ claimG ea l (if 1 < l then mul64 pi0 e.pi else pi0)) := by
    simp [List.any_eq_true]
  refine ⟨?_, ?_, rfl⟩
  · intro hex
    rw [hchar, if_pos (hany.mpr hex)]
  · intro hex
    rw [hchar, if_neg (fun hc => hex (hany.mp hc))]

/-- A DP state holding, at end-index 0, the length-1 entry with guess
product `2^62`; extending it by a match with cached guesses `2` makes the
claim's (unbounded) metric `2! · 2^63 = 2^64`, which wraps to `0`. -/
def c3mA : Match := { pattern := "pa", token := ['a'], i := 0, j := 0,
                      guesses := some 4611686018427387904 }

def c3mB : Match := { pattern := "pb", token := ['b'], i := 1, j := 1,
                      guesses := some 2 }

def c3opt0 : Optimal :=
  [[(1, ⟨c3mA, 4611686018427387904, 4611686018427387904⟩)], []]

/-- C3 counterexample: on this concrete `update` call the stored metric is
`0`, not the claim's `2! · 2^63 = 2^64` (which does not fit `u64`): the
cost is computed in wrapping 64-bit arithmetic. -/
theorem c3_counterexample :
    update stats0 ['a', 'b'] true c3mB 2 c3opt0 =
      some [[(1, ⟨c3mA, 4611686018427387904, 4611686018427387904⟩)],
            [(2, ⟨c3mB, 9223372036854775808, 0⟩)]] ∧
    (0 : Nat) ≠ Nat.factorial 2 * 9223372036854775808 := by
  constructor
  · decide
  · decide

/-- C3 witness: the store branch of the amended rule at a concrete
singleton call. -/
def c3wm : Match := { pattern := "pw", token := ['a'], i := 0, j := 0,
                      guesses := some 7 }

theorem c3_witness :
    update stats0 ['a'] true c3wm 1 [[]] =
      some ([[]].set c3wm.j (insertA 1 ⟨c3wm, if 1 < 1 then mul64 7 (⟨Match.default, 0, 0⟩ : Entry).pi else 7,
        claimG true 1 (if 1 < 1 then mul64 7 (⟨Match.default, 0, 0⟩ : Entry).pi else 7)⟩ [])) :=
  (c3_update_rule stats0 ['a'] true c3wm 1 [[]] 7 c3wm [] [] ⟨Match.default, 0, 0⟩
    rfl (fun h => absurd h (by decide)) rfl (by decide) (by decide)).2.1 (by simp)

/-- C4 (amended): all that survives of the claimed determinism is the
pruning tie-break, and it favours the stored (that is, the
earlier-inserted) entry: whenever some stored `(L', g')` with `L' ≤ L` has
`g' ≤ g` — including the exact tie `g' = g` — `update` leaves the state
unchanged and the new candidate is discarded.  (This much is genuinely
order-independent in the source: the pruning loop is an existence check
over the table, so the `HashMap` iteration order cannot affect it.)  The
rest of the claim is refuted by `c4_counterexample`: the result is neither
invariant under the input order of the matches, nor stable across
processes when the final unwind scan meets a tie. -/
theorem c4_pruning_tie_favours_stored
    (stats : AdjacencyStats) (pw : List Char) (ea : Bool) (m : Match) (l : Nat)
    (opt : Optimal) (pi0 : Nat) (m1 : Match) (prev gk : OMap) (e : Entry) (p : Nat × Entry)
    (hest : estimate_guesses stats pw m = some (pi0, m1))
    (hprev : 1 < l → opt[m1.i - 1]? = some prev ∧ lookupA (l - 1) prev = some e)
    (hgk : opt[m.j]? = some gk) (hl1 : 1 ≤ l) (hl32 : l - 1 < U32)
    (hp : p ∈ gk) (hpl : p.1 ≤ l)
    (hpg : p.2.g ≤ claimG ea l (if 1 < l then mul64 pi0 e.pi else pi0)) :
    update stats pw ea m l opt = some opt := by
  rw [update_char stats pw ea m l opt pi0 m1 prev gk e hest hprev hgk hl32]
  rw [if_pos (List.any_eq_true.mpr ⟨p, hp, by simp [hpl, hpg]⟩)]

/-- C4 witness: a concrete exact tie (`g' = g = 5`) at a singleton call —
the stored entry survives and the state is unchanged. -/
def c4wm0 : Match := { pattern := "pa", token := ['a'], i := 0, j := 0, guesses := some 5 }
def c4wm1 : Match := { pattern := "pb", token := ['a'], i := 0, j := 0, guesses := some 5 }
def c4wOpt : Optimal := [[(1, ⟨c4wm0, 5, 5⟩)]]

theorem c4_witness :
    update stats0 ['a'] true c4wm1 1 c4wOpt = some c4wOpt :=
  c4_pruning_tie_favours_stored stats0 ['a'] true c4wm1 1 c4wOpt 5 c4wm1 []
    ((c4wOpt.get ⟨0, by decide⟩)) ⟨Match.default, 0, 0⟩ (1, ⟨c4wm0, 5, 5⟩)
    rfl (fun h => absurd h (by decide)) rfl (by decide) (by decide) (by decide) (by decide)
    (by decide)

/-- Two distinct matches over the same span with equal cached guesses:
whichever is listed first wins, so the result is not invariant under
reordering the input matches. -/
def c4A : Match := { pattern := "pa", token := ['a', 'b'], i := 0, j := 1, guesses := some 1 }
def c4B : Match := { pattern := "pb", token := ['a', 'b'], i := 0, j := 1, guesses := some 1 }

/-- Matches producing an exact `g`-tie between two coverings of different
length at the final index: `[c4tA, c4tB]` costs `2! · 10 · 5 = 100` and
the single bruteforce filler costs `10^2 = 100`. -/
def c4tA : Match := { pattern := "pa", token := ['a'], i := 0, j := 0, guesses := some 10 }
def c4tB : Match := { pattern := "pb", token := ['b'], i := 1, j := 1, guesses := some 5 }

/-- The full-span bruteforce filler as stored by the search on password
`"ab"` (its estimate `100` cached on it). -/
def c4bf : Match := { pattern := "bruteforce", token := ['a', 'b'], i := 0, j := 1,
                      guesses := some 100 }

/-- C4 counterexample, refuting both determinism clauses of the claim.
(1) Input order: swapping two equally-scored same-span matches changes the
returned sequence, because the stable sort by `i` keeps their input order
and a tied later candidate is pruned in favour of the earlier one.
(2) Process seed: on password `"ab"` with matches `{i=0,j=0,guesses=10}`
and `{i=1,j=1,guesses=5}`, the search reaches the final table
`{2 ↦ g=100, 1 ↦ g=100}` — an exact tie between the two-match covering and
the single bruteforce covering.  The source scans that table in the
per-process-randomized iteration order of a `std::collections::HashMap`,
and the two possible orders of this same table content make `unwind`
return different sequences (`[c4tA, c4tB]` versus `[c4bf]`), so across
processes the result depends on the hash seed. -/
theorem c4_counterexample :
    (most_guessable_match_sequence stats0 ['a', 'b'] [c4A, c4B] true ≠
      most_guessable_match_sequence stats0 ['a', 'b'] [c4B, c4A] true) ∧
    buildBuckets 2 [c4tA, c4tB] = some [[c4tA], [c4tB]] ∧
    mainDP stats0 ['a', 'b'] true [[c4tA], [c4tB]] =
      some [[(1, ⟨c4tA, 10, 10⟩)], [(2, ⟨c4tB, 50, 100⟩), (1, ⟨c4bf, 100, 100⟩)]] ∧
    unwind 2 [[(1, ⟨c4tA, 10, 10⟩)], [(2, ⟨c4tB, 50, 100⟩), (1, ⟨c4bf, 100, 100⟩)]] =
      some [c4tA, c4tB] ∧
    unwind 2 [[(1, ⟨c4tA, 10, 10⟩)], [(1, ⟨c4bf, 100, 100⟩), (2, ⟨c4tB, 50, 100⟩)]] =
      some [c4bf] := by
  refine ⟨by decide, by decide, by decide, by decide, by decide⟩

/-! ## Association-list lemmas -/

theorem lookupA_mem {l : Nat} {e : Entry} : ∀ {mp : OMap}, lookupA l mp = some e → (l, e) ∈ mp := by
  intro mp
  induction mp with
  | nil => intro h; simp [lookupA] at h
  | cons p rest ih =>
    intro h
    obtain ⟨l', e'⟩ := p
    unfold lookupA at h
    by_cases hl : l' = l
    · rw [if_pos hl] at h
      rw [Option.some_inj] at h
      subst hl; subst h
      exact List.mem_cons_self _ _
    · rw [if_neg hl] at h
      exact List.mem_cons_of_mem _ (ih h)

theorem lookupA_of_mem_nodup {l : Nat} {e : Entry} : ∀ {mp : OMap},
    (l, e) ∈ mp → (mp.map Prod.fst).Nodup → lookupA l mp = some e := by
  intro mp
  induction mp with
  | nil => intro h; simp at h
  | cons p rest ih =>
    intro hm hnd
    obtain ⟨l', e'⟩ := p
    rw [List.map_cons, List.nodup_cons] at hnd
    rcases List.mem_cons.mp hm with heq | hmem
    · rw [Prod.mk.injEq] at heq
      unfold lookupA
      rw [if_pos heq.1.symm, heq.2]
    · unfold lookupA
      have hmemk : l ∈ rest.map Prod.fst := List.mem_map_of_mem Prod.fst hmem
      have hne : l' ≠ l := by
        intro hc
        exact hnd.1 (by rw [hc]; exact hmemk)
      rw [if_neg hne]
      exact ih hmem hnd.2

theorem mem_insertA {l : Nat} {e : Entry} {p : Nat × Entry} : ∀ {mp : OMap},
    p ∈ insertA l e mp → p = (l, e) ∨ p ∈ mp := by
  intro mp
  induction mp with
  | nil => intro h; simp [insertA] at h; left; exact h
  | cons q rest ih =>
    intro h
    obtain ⟨l', e'⟩ := q
    unfold insertA at h
    by_cases hl : l' = l
    · rw [if_pos hl] at h
      rcases List.mem_cons.mp h with heq | hmem
      · left; exact heq
      · right; exact List.mem_cons_of_mem _ hmem
    · rw [if_neg hl] at h
      rcases List.mem_cons.mp h with heq | hmem
      · right; exact heq ▸ List.mem_cons_self _ _
      · rcases ih hmem with h1 | h2
        · left; exact h1
        · right; exact List.mem_cons_of_mem _ h2

theorem keys_insertA (l : Nat) (e : Entry) : ∀ (mp : OMap),
    ((insertA l e mp).map Prod.fst) =
      if l ∈ mp.map Prod.fst then mp.map Prod.fst else mp.map Prod.fst ++ [l] := by
  intro mp
  induction mp with
  | nil => simp [insertA]
  | cons q rest ih =>
    obtain ⟨l', e'⟩ := q
    unfold insertA
    by_cases hl : l' = l
    · subst hl
      simp
    · rw [if_neg hl]
      simp only [List.map_cons, List.mem_cons]
      rw [ih]
      by_cases hmem : l ∈ rest.map Prod.fst
      · rw [if_pos hmem, if_pos (Or.inr hmem)]
      · have hnot : ¬ (l = l' ∨ l ∈ rest.map Prod.fst) := by
          rintro (h | h)
          · exact hl h.symm
          · exact hmem h
        rw [if_neg hmem, if_neg hnot]
        simp

theorem insertA_nodup {l : Nat} {e : Entry} {mp : OMap}
    (h : (mp.map Prod.fst).Nodup) : ((insertA l e mp).map Prod.fst).Nodup := by
  rw [keys_insertA]
  by_cases hmem : l ∈ mp.map Prod.fst
  · rw [if_pos hmem]; exact h
  · rw [if_neg hmem]
    rw [List.nodup_append]
    refine ⟨h, List.nodup_singleton l, ?_⟩
    intro a ha hc
    rw [List.mem_singleton] at hc
    exact hmem (hc ▸ ha)

/-! ## Field preservation through estimation -/

theorem dispatch_fields {stats : AdjacencyStats} {m : Match} {r : Nat} {m1 : Match}
    (h : dispatchEstimate stats m = some (r, m1)) :
    m1.i = m.i ∧ m1.j = m.j ∧ m1.token = m.token ∧ m1.pattern = m.pattern := by
  unfold dispatchEstimate at h
  split_ifs at h
  · rw [Option.some_inj, Prod.mk.injEq] at h
    rw [← h.2]
    exact ⟨rfl, rfl, rfl, rfl⟩
  · unfold dictionaryEstimate at h
    cases hA : m.rank with
    | none => rw [hA] at h; simp at h
    | some rank =>
      cases hB : uppercase_variations m with
      | none => rw [hA, hB] at h; simp at h
      | some uv =>
        cases hC : l33t_variations m with
        | none => rw [hA, hB, hC] at h; simp at h
        | some lv =>
          rw [hA, hB, hC] at h
          dsimp only [] at h
          rw [Option.some_inj, Prod.mk.injEq] at h
          rw [← h.2]
          exact ⟨rfl, rfl, rfl, rfl⟩
  all_goals
    first
    | (rcases Option.map_eq_some'.mp h with ⟨g, _, heq⟩
       rw [Prod.mk.injEq] at heq
       rw [← heq.2]
       exact ⟨rfl, rfl, rfl, rfl⟩)
    | simp at h

theorem estimate_fields {stats : AdjacencyStats} {pw : List Char} {m : Match} {v : Nat}
    {m1 : Match} (h : estimate_guesses stats pw m = some (v, m1)) :
    m1.i = m.i ∧ m1.j = m.j ∧ m1.token = m.token ∧ m1.pattern = m.pattern := by
  unfold estimate_guesses at h
  cases hg : m.guesses with
  | some g =>
    rw [hg] at h
    dsimp only [] at h
    rw [Option.some_inj, Prod.mk.injEq] at h
    rw [← h.2]
    exact ⟨rfl, rfl, rfl, rfl⟩
  | none =>
    rw [hg] at h
    dsimp only [] at h
    cases hd : dispatchEstimate stats m with
    | none => rw [hd] at h; simp at h
    | some rm =>
      obtain ⟨r, m2⟩ := rm
      rw [hd] at h
      dsimp only [] at h
      rw [Option.some_inj, Prod.mk.injEq] at h
      have hf := dispatch_fields hd
      rw [← h.2]
      exact ⟨hf.1, hf.2.1, hf.2.2.1, hf.2.2.2⟩

/-! ## Structural facts about `update` -/

theorem update_some {stats : AdjacencyStats} {pw : List Char} {ea : Bool} {m : Match}
    {l : Nat} {opt opt' : Optimal} (h : update stats pw ea m l opt = some opt') :
    ∃ pi0 m1 gk,
      estimate_guesses stats pw m = some (pi0, m1) ∧
      opt[m.j]? = some gk ∧
      (1 < l → ∃ prev e, opt[m1.i - 1]? = some prev ∧ lookupA (l - 1) prev = some e) ∧
      (opt' = opt ∨ ∃ piv gv, opt' = opt.set m.j (insertA l ⟨m1, piv, gv⟩ gk)) := by
  unfold update at h
  cases hest : estimate_guesses stats pw m with
  | none => rw [hest] at h; simp at h
  | some pm =>
    obtain ⟨pi0, m1⟩ := pm
    rw [hest] at h
    dsimp only [] at h
    by_cases hl : 1 < l
    · rw [if_pos hl] at h
      cases hp1 : opt[m1.i - 1]? with
      | none => rw [hp1] at h; simp at h
      | some prev =>
        rw [hp1] at h
        dsimp only [] at h
        cases hp2 : lookupA (l - 1) prev with
        | none => rw [hp2] at h; simp at h
        | some e =>
          rw [hp2] at h
          dsimp only [] at h
          cases hgk : opt[m.j]? with
          | none => rw [hgk] at h; simp at h
          | some gk =>
            rw [hgk] at h
            dsimp only [] at h
            refine ⟨pi0, m1, gk, rfl, rfl, fun _ => ⟨prev, e, hp1, hp2⟩, ?_⟩
            split at h <;> split at h <;>
              first
                | (left; exact (Option.some_inj.mp h).symm)
                | (right; exact ⟨_, _, (Option.some_inj.mp h).symm⟩)
    · rw [if_neg hl] at h
      dsimp only [] at h
      cases hgk : opt[m.j]? with
      | none => rw [hgk] at h; simp at h
      | some gk =>
        rw [hgk] at h
        dsimp only [] at h
        refine ⟨pi0, m1, gk, rfl, rfl, fun hc => absurd hc hl, ?_⟩
        split at h <;> split at h <;>
          first
            | (left; exact (Option.some_inj.mp h).symm)
            | (right; exact ⟨_, _, (Option.some_inj.mp h).symm⟩)

theorem update_length {stats : AdjacencyStats} {pw : List Char} {ea : Bool} {m : Match}
    {l : Nat} {opt opt' : Optimal} (h : update stats pw ea m l opt = some opt') :
    opt'.length = opt.length := by
  obtain ⟨_, _, _, _, _, _, hset⟩ := update_some h
  rcases hset with rfl | ⟨piv, gv, rfl⟩
  · rfl
  · exact List.length_set ..

theorem update_get_ne {stats : AdjacencyStats} {pw : List Char} {ea : Bool} {m : Match}
    {l : Nat} {opt opt' : Optimal} (h : update stats pw ea m l opt = some opt')
    {idx : Nat} (hne : idx ≠ m.j) : opt'[idx]? = opt[idx]? := by
  obtain ⟨_, _, _, _, _, _, hset⟩ := update_some h
  rcases hset with rfl | ⟨piv, gv, rfl⟩
  · rfl
  · exact List.getElem?_set_ne (fun hc => hne hc.symm)

/-! ## The DP-table invariant -/

/-- No caller-supplied match is tagged as bruteforce (the matcher never
produces that tag; the bruteforce fillers are made by the core itself). -/
def NoBFIn (ms : List Match) : Prop := ∀ m ∈ ms, m.pattern ≠ "bruteforce"

/-- Well-formedness of one stored DP entry `(k, l) ↦ e`: the stored match
ends at `k` and starts within the prefix, its token is the corresponding
password slice, lengths are positive, and an entry whose match does not
start at 0 has length `> 1` and a predecessor entry at `(i - 1, l - 1)`;
when no input match is bruteforce-tagged, a bruteforce entry's predecessor
is not itself bruteforce. -/
def EntryOK (pw : List Char) (ms : List Match) (opt : Optimal) (k l : Nat) (e : Entry) :
    Prop :=
  e.m.j = k ∧ e.m.i ≤ k ∧ 1 ≤ l ∧ e.m.token = slice pw e.m.i e.m.j ∧
  (0 < e.m.i → 1 < l ∧ ∃ prev e2, opt[e.m.i - 1]? = some prev ∧
    lookupA (l - 1) prev = some e2 ∧
    (NoBFIn ms → e.m.pattern = "bruteforce" → e2.m.pattern ≠ "bruteforce"))

/-- The invariant of the whole table after the search has processed the
end-indices `< K`: every per-index map has distinct keys, only indices
`< K` are populated, and every entry is well-formed. -/
def StInv (pw : List Char) (ms : List Match) (K : Nat) (opt : Optimal) : Prop :=
  ∀ k gk, opt[k]? = some gk →
    (gk.map Prod.fst).Nodup ∧ (gk ≠ [] → k < K) ∧
    ∀ p ∈ gk, EntryOK pw ms opt k p.1 p.2

theorem StInv_mono {pw : List Char} {ms : List Match} {K K' : Nat} {opt : Optimal}
    (hK : K ≤ K') (h : StInv pw ms K opt) : StInv pw ms K' opt := by
  intro k gk hk
  obtain ⟨h1, h2, h3⟩ := h k gk hk
  exact ⟨h1, fun hne => lt_of_lt_of_le (h2 hne) hK, h3⟩

/-- Inserting a well-formed entry at the frontier index `k0 = K - 1`
preserves the invariant: all predecessor references of stored entries
point strictly below `k0`, so they are unaffected by the write. -/
theorem StInv_set_insert {pw : List Char} {ms : List Match} {k0 : Nat} {opt : Optimal}
    {gk0 : OMap} {l : Nat} {e : Entry}
    (hInv : StInv pw ms (k0 + 1) opt)
    (hgk : opt[k0]? = some gk0)
    (hj : e.m.j = k0) (hik : e.m.i ≤ k0) (hl : 1 ≤ l)
    (htok : e.m.token = slice pw e.m.i e.m.j)
    (hpred : 0 < e.m.i → 1 < l ∧ ∃ prev e2, opt[e.m.i - 1]? = some prev ∧
      lookupA (l - 1) prev = some e2 ∧
      (NoBFIn ms → e.m.pattern = "bruteforce" → e2.m.pattern ≠ "bruteforce")) :
    StInv pw ms (k0 + 1) (opt.set k0 (insertA l e gk0)) := by
  have hk0len : k0 < opt.length := (List.getElem?_eq_some.mp hgk).1
  have hlow : ∀ idx, idx < k0 → (opt.set k0 (insertA l e gk0))[idx]? = opt[idx]? :=
    fun idx hidx => List.getElem?_set_ne (by omega)
  intro k gk hk
  by_cases hkk : k = k0
  · subst hkk
    rw [List.getElem?_set_self hk0len, Option.some_inj] at hk
    subst hk
    obtain ⟨hnd0, _, hOK0⟩ := hInv k gk0 hgk
    refine ⟨insertA_nodup hnd0, fun _ => by omega, ?_⟩
    intro p hp
    rcases mem_insertA hp with rfl | hpold
    · -- the new entry
      show EntryOK pw ms _ k l e
      refine ⟨hj, hik, hl, htok, ?_⟩
      intro hi
      obtain ⟨hl2, prev, e2, hp1, hp2, hbf⟩ := hpred hi
      exact ⟨hl2, prev, e2, by rw [hlow _ (by omega)]; exact hp1, hp2, hbf⟩
    · -- an old entry at k0: its references are < k0, unchanged
      obtain ⟨h1, h2, h3, h4, h5⟩ := hOK0 p hpold
      refine ⟨h1, h2, h3, h4, ?_⟩
      intro hi
      obtain ⟨hl2, prev, e2, hp1, hp2, hbf⟩ := h5 hi
      exact ⟨hl2, prev, e2, by rw [hlow _ (by omega)]; exact hp1, hp2, hbf⟩
  · rw [List.getElem?_set_ne (fun hc => hkk hc.symm)] at hk
    obtain ⟨h1, h2, h3⟩ := hInv k gk hk
    refine ⟨h1, h2, ?_⟩
    intro p hp
    have hkK : k < k0 + 1 := h2 (by rintro rfl; simp at hp)
    have hklt : k < k0 := by omega
    obtain ⟨g1, g2, g3, g4, g5⟩ := h3 p hp
    refine ⟨g1, g2, g3, g4, ?_⟩
    intro hi
    obtain ⟨hl2, prev, e2, hp1, hp2, hbf⟩ := g5 hi
    refine ⟨hl2, prev, e2, ?_, hp2, hbf⟩
    rw [hlow _ (by omega)]
    exact hp1

/-- `update` called during the processing of end-index `m.j` preserves the
invariant, provided the candidate match is well-formed and — when it is
bruteforce-tagged and a genuine extension — the predecessor it extends is
not bruteforce. -/
theorem update_preserves {stats : AdjacencyStats} {pw : List Char} {ea : Bool}
    {ms : List Match} {m : Match} {l : Nat} {opt opt' : Optimal}
    (hInv : StInv pw ms (m.j + 1) opt)
    (hupd : update stats pw ea m l opt = some opt')
    (hij : m.i ≤ m.j) (htok : m.token = slice pw m.i m.j)
    (hl : 1 ≤ l) (hl2 : 0 < m.i → 1 < l)
    (hbf : NoBFIn ms → m.pattern = "bruteforce" → 0 < m.i →
      ∀ prev e2, opt[m.i - 1]? = some prev → lookupA (l - 1) prev = some e2 →
        e2.m.pattern ≠ "bruteforce") :
    StInv pw ms (m.j + 1) opt' := by
  obtain ⟨pi0, m1, gk, hest, hgk, hpd, hset⟩ := update_some hupd
  obtain ⟨hfi, hfj, hftok, hfpat⟩ := estimate_fields hest
  rcases hset with rfl | ⟨piv, gv, rfl⟩
  · exact hInv
  · apply StInv_set_insert hInv hgk
    · exact hfj.trans rfl
    · rw [hfi]; exact hij
    · exact hl
    · rw [hftok, hfi, hfj]; exact htok
    · intro hi
      rw [hfi] at hi
      have hl2' := hl2 hi
      obtain ⟨prev, e2, hp1, hp2⟩ := hpd hl2'
      rw [hfi] at hp1
      refine ⟨hl2', prev, e2, by rw [hfi]; exact hp1, hp2, ?_⟩
      intro hnb hpat
      rw [hfpat] at hpat
      exact hbf hnb hpat hi prev e2 hp1 hp2

/-! ## Invariant preservation through the main loop -/

theorem foldUpdate_preserves {stats : AdjacencyStats} {pw : List Char} {ea : Bool}
    {ms : List Match} {m : Match}
    (hm : NoBFIn ms → m.pattern ≠ "bruteforce")
    (hij : m.i ≤ m.j) (htok : m.token = slice pw m.i m.j) :
    ∀ (ks : List Nat) (opt opt' : Optimal),
    StInv pw ms (m.j + 1) opt →
    (∀ l0 ∈ ks, 1 ≤ l0) →
    List.foldlM (fun o l0 => update stats pw ea m (l0 + 1) o) opt ks = some opt' →
    StInv pw ms (m.j + 1) opt' := by
  intro ks
  induction ks with
  | nil =>
    intro opt opt' hInv _ h
    rw [List.foldlM_nil] at h
    rwa [← Option.some_inj.mp h]
  | cons l0 rest ih =>
    intro opt opt' hInv hks h
    rw [List.foldlM_cons] at h
    cases hu : update stats pw ea m (l0 + 1) opt with
    | none => rw [hu] at h; simp at h
    | some opt1 =>
      rw [hu] at h
      simp only [Option.bind_eq_bind, Option.bind_some] at h
      have hl01 : 1 ≤ l0 := hks l0 (List.mem_cons_self _ _)
      have hInv1 := update_preserves hInv hu hij htok (by omega) (fun _ => by omega)
        (fun hnb hpat => absurd hpat (hm hnb))
      exact ih opt1 opt' hInv1 (fun x hx => hks x (List.mem_cons_of_mem _ hx)) h

theorem matchStep_preserves {stats : AdjacencyStats} {pw : List Char} {ea : Bool}
    {ms : List Match} {m : Match} {opt opt' : Optimal}
    (hInv : StInv pw ms (m.j + 1) opt)
    (hm : m ∈ ms)
    (hij : m.i ≤ m.j) (htok : m.token = slice pw m.i m.j)
    (hstep : matchStep stats pw ea opt m = some opt') :
    StInv pw ms (m.j + 1) opt' := by
  have hmbf : NoBFIn ms → m.pattern ≠ "bruteforce" := fun hnb => hnb m hm
  unfold matchStep at hstep
  by_cases hi : 0 < m.i
  · rw [if_pos hi] at hstep
    cases hp : opt[m.i - 1]? with
    | none => rw [hp] at hstep; simp at hstep
    | some prev =>
      rw [hp] at hstep
      dsimp only [] at hstep
      have hkeys : ∀ l0 ∈ prev.map Prod.fst, 1 ≤ l0 := by
        intro l0 hl0
        rcases List.mem_map.mp hl0 with ⟨p, hpmem, rfl⟩
        exact ((hInv _ _ hp).2.2 p hpmem).2.2.1
      exact foldUpdate_preserves hmbf hij htok (prev.map Prod.fst) opt opt' hInv hkeys hstep
  · rw [if_neg hi] at hstep
    exact update_preserves hInv hstep hij htok (le_refl 1) (fun h0 => absurd h0 hi)
      (fun _ _ h0 => absurd h0 hi)

theorem bfInner_preserves {stats : AdjacencyStats} {pw : List Char} {ea : Bool}
    {ms : List Match} {k i : Nat} (h1i : 1 ≤ i) (hik : i ≤ k) :
    ∀ (entries : List (Nat × Entry)) (opt opt' : Optimal) (prev : OMap),
    StInv pw ms (k + 1) opt →
    opt[i - 1]? = some prev →
    (prev.map Prod.fst).Nodup →
    (∀ p ∈ entries, p ∈ prev) →
    (∀ p ∈ prev, 1 ≤ p.1) →
    List.foldlM (fun o2 p =>
      if p.2.m.pattern = "bruteforce" then some o2
      else update stats pw ea (make_bruteforce_match i k pw) (p.1 + 1) o2) opt entries
      = some opt' →
    StInv pw ms (k + 1) opt' := by
  intro entries
  induction entries with
  | nil =>
    intro opt opt' prev hInv _ _ _ _ h
    rw [List.foldlM_nil] at h
    rwa [← Option.some_inj.mp h]
  | cons p rest ih =>
    intro opt opt' prev hInv hprev hnd hsub hge1 h
    rw [List.foldlM_cons] at h
    by_cases hbfp : p.2.m.pattern = "bruteforce"
    · rw [if_pos hbfp] at h
      simp only [Option.bind_eq_bind, Option.bind_some] at h
      exact ih opt opt' prev hInv hprev hnd
        (fun q hq => hsub q (List.mem_cons_of_mem _ hq)) hge1 h
    · rw [if_neg hbfp] at h
      cases hu : update stats pw ea (make_bruteforce_match i k pw) (p.1 + 1) opt with
      | none => rw [hu] at h; simp at h
      | some opt2 =>
        rw [hu] at h
        simp only [Option.bind_eq_bind, Option.bind_some] at h
        have hpmem : p ∈ prev := hsub p (List.mem_cons_self _ _)
        have hp1 : 1 ≤ p.1 := hge1 p hpmem
        have hInv2 : StInv pw ms (k + 1) opt2 := by
          apply update_preserves (m := make_bruteforce_match i k pw) hInv hu hik rfl
            (by omega) (fun _ => by omega)
          intro _ _ _ prevX e2 hpX hlX
          have hprevX : prevX = prev := by
            have hred : (make_bruteforce_match i k pw).i - 1 = i - 1 := rfl
            rw [hred, hprev] at hpX
            exact (Option.some_inj.mp hpX).symm
          rw [hprevX] at hlX
          have hlook : lookupA p.1 prev = some p.2 := lookupA_of_mem_nodup hpmem hnd
          have hred2 : (p.1 + 1) - 1 = p.1 := by omega
          rw [hred2, hlook] at hlX
          rw [← Option.some_inj.mp hlX]
          exact hbfp
        have hprev2 : opt2[i - 1]? = some prev := by
          rw [update_get_ne hu (by show i - 1 ≠ (make_bruteforce_match i k pw).j; show i - 1 ≠ k; omega)]
          exact hprev
        exact ih opt2 opt' prev hInv2 hprev2 hnd
          (fun q hq => hsub q (List.mem_cons_of_mem _ hq)) hge1 h

theorem bfOuter_preserves {stats : AdjacencyStats} {pw : List Char} {ea : Bool}
    {ms : List Match} {k : Nat} :
    ∀ (is : List Nat) (opt opt' : Optimal),
    StInv pw ms (k + 1) opt →
    (∀ i ∈ is, 1 ≤ i ∧ i ≤ k) →
    List.foldlM (fun o i =>
      let m := make_bruteforce_match i k pw
      match o[i - 1]? with
      | none => none
      | some prev =>
        prev.foldlM (fun o2 p =>
          if p.2.m.pattern = "bruteforce" then some o2
          else update stats pw ea m (p.1 + 1) o2) o) opt is = some opt' →
    StInv pw ms (k + 1) opt' := by
  intro is
  induction is with
  | nil =>
    intro opt opt' hInv _ h
    rw [List.foldlM_nil] at h
    rwa [← Option.some_inj.mp h]
  | cons i rest ih =>
    intro opt opt' hInv his h
    rw [List.foldlM_cons] at h
    obtain ⟨h1i, hik⟩ := his i (List.mem_cons_self _ _)
    cases hp : opt[i - 1]? with
    | none => rw [hp] at h; simp at h
    | some prev =>
      rw [hp] at h
      dsimp only [] at h
      cases hf : prev.foldlM (fun o2 p =>
          if p.2.m.pattern = "bruteforce" then some o2
          else update stats pw ea (make_bruteforce_match i k pw) (p.1 + 1) o2) opt with
      | none => rw [hf] at h; simp at h
      | some opt1 =>
        rw [hf] at h
        simp only [Option.bind_eq_bind, Option.bind_some] at h
        obtain ⟨hnd, _, hOK⟩ := hInv _ _ hp
        have hge1 : ∀ p ∈ prev, 1 ≤ p.1 := fun p hpm => (hOK p hpm).2.2.1
        have hInv1 := bfInner_preserves h1i hik prev opt opt1 prev hInv hp hnd
          (fun q hq => hq) hge1 hf
        exact ih opt1 opt' hInv1 (fun x hx => his x (List.mem_cons_of_mem _ hx)) h

theorem bruteforce_update_preserves {stats : AdjacencyStats} {pw : List Char} {ea : Bool}
    {ms : List Match} {k : Nat} {opt opt' : Optimal}
    (hInv : StInv pw ms (k + 1) opt)
    (h : bruteforce_update stats k pw opt ea = some opt') :
    StInv pw ms (k + 1) opt' := by
  unfold bruteforce_update at h
  cases h1 : update stats pw ea (make_bruteforce_match 0 k pw) 1 opt with
  | none => rw [h1] at h; simp at h
  | some opt1 =>
    rw [h1] at h
    have hInv1 : StInv pw ms (k + 1) opt1 :=
      update_preserves (m := make_bruteforce_match 0 k pw) hInv h1 (Nat.zero_le k) rfl
        (le_refl 1) (fun h0 => absurd h0 (Nat.lt_irrefl 0))
        (fun _ _ h0 => absurd h0 (Nat.lt_irrefl 0))
    have hrange : ∀ i ∈ List.range' 1 k, 1 ≤ i ∧ i ≤ k := by
      intro i hi
      have := List.mem_range'_1.mp hi
      omega
    exact bfOuter_preserves (List.range' 1 k) opt1 opt' hInv1 hrange h

theorem bucketFold_preserves {stats : AdjacencyStats} {pw : List Char} {ea : Bool}
    {ms : List Match} {k : Nat}
    (hvalid : ∀ m ∈ ms, m.i ≤ m.j ∧ m.token = slice pw m.i m.j) :
    ∀ (bucket : List Match) (opt opt' : Optimal),
    StInv pw ms (k + 1) opt →
    (∀ m ∈ bucket, m ∈ ms ∧ m.j = k) →
    bucket.foldlM (matchStep stats pw ea) opt = some opt' →
    StInv pw ms (k + 1) opt' := by
  intro bucket
  induction bucket with
  | nil =>
    intro opt opt' hInv _ hf
    rw [List.foldlM_nil] at hf
    rwa [← Option.some_inj.mp hf]
  | cons m rest ihb =>
    intro opt opt' hInv hb hf
    rw [List.foldlM_cons] at hf
    cases hs : matchStep stats pw ea opt m with
    | none => rw [hs] at hf; simp at hf
    | some opt2 =>
      rw [hs] at hf
      simp only [Option.bind_eq_bind, Option.bind_some] at hf
      obtain ⟨hmem, hjk⟩ := hb m (List.mem_cons_self _ _)
      obtain ⟨hij, htok⟩ := hvalid m hmem
      have hInv0' : StInv pw ms (m.j + 1) opt := by rw [hjk]; exact hInv
      have hInv2 : StInv pw ms (m.j + 1) opt2 :=
        matchStep_preserves hInv0' hmem hij htok hs
      have hInv2' : StInv pw ms (k + 1) opt2 := by rw [← hjk]; exact hInv2
      exact ihb opt2 opt' hInv2' (fun x hx => hb x (List.mem_cons_of_mem m hx)) hf

theorem processIndex_preserves {stats : AdjacencyStats} {pw : List Char} {ea : Bool}
    {ms : List Match} {k : Nat} {bucket : List Match} {opt opt' : Optimal}
    (hInv : StInv pw ms k opt)
    (hb : ∀ m ∈ bucket, m ∈ ms ∧ m.j = k)
    (hvalid : ∀ m ∈ ms, m.i ≤ m.j ∧ m.token = slice pw m.i m.j)
    (h : processIndex stats pw ea opt k bucket = some opt') :
    StInv pw ms (k + 1) opt' := by
  unfold processIndex at h
  cases hf : bucket.foldlM (matchStep stats pw ea) opt with
  | none => rw [hf] at h; simp at h
  | some opt1 =>
    rw [hf] at h
    have hInv1 : StInv pw ms (k + 1) opt1 :=
      bucketFold_preserves hvalid bucket opt opt1 (StInv_mono (Nat.le_succ k) hInv) hb hf
    exact bruteforce_update_preserves hInv1 h

/-! ## Bucket construction facts -/

theorem mem_insertByI {m x : Match} : ∀ {l : List Match}, x ∈ insertByI m l ↔ x = m ∨ x ∈ l := by
  intro l
  induction l with
  | nil => simp [insertByI]
  | cons y ys ih =>
    unfold insertByI
    by_cases hy : y.i < m.i
    · rw [if_pos hy]
      simp only [List.mem_cons, ih]
      try tauto
    · rw [if_neg hy]
      simp only [List.mem_cons]
      try tauto

theorem mem_sortByI {x : Match} : ∀ {l : List Match}, x ∈ sortByI l ↔ x ∈ l := by
  intro l
  induction l with
  | nil => simp [sortByI]
  | cons y ys ih =>
    unfold sortByI
    rw [mem_insertByI]
    simp only [List.mem_cons, ih]

theorem buildBuckets_go {ms0 : List Match} :
    ∀ (l : List Match) (acc bs : List (List Match)),
    (∀ m ∈ l, m ∈ ms0) →
    (∀ idx b, acc[idx]? = some b → ∀ m ∈ b, m ∈ ms0 ∧ m.j = idx) →
    List.foldlM (fun bs m =>
      match bs[m.j]? with
      | none => none
      | some b => some (bs.set m.j (b ++ [m]))) acc l = some bs →
    bs.length = acc.length ∧ ∀ idx b, bs[idx]? = some b → ∀ m ∈ b, m ∈ ms0 ∧ m.j = idx := by
  intro l
  induction l with
  | nil =>
    intro acc bs _ hacc h
    rw [List.foldlM_nil] at h
    have := Option.some_inj.mp h
    subst this
    exact ⟨rfl, hacc⟩
  | cons m rest ih =>
    intro acc bs hsub hacc h
    rw [List.foldlM_cons] at h
    cases hb : acc[m.j]? with
    | none => rw [hb] at h; simp at h
    | some b =>
      rw [hb] at h
      simp only [Option.bind_eq_bind, Option.bind_some] at h
      have hjlen : m.j < acc.length := (List.getElem?_eq_some.mp hb).1
      have hacc' : ∀ idx b', (acc.set m.j (b ++ [m]))[idx]? = some b' →
          ∀ x ∈ b', x ∈ ms0 ∧ x.j = idx := by
        intro idx b' hidx
        by_cases hij : idx = m.j
        · subst hij
          rw [List.getElem?_set_self hjlen, Option.some_inj] at hidx
          subst hidx
          intro x hx
          rcases List.mem_append.mp hx with hxb | hxm
          · exact hacc m.j b hb x hxb
          · rw [List.mem_singleton] at hxm
            subst hxm
            exact ⟨hsub x (List.mem_cons_self _ _), rfl⟩
        · rw [List.getElem?_set_ne (fun hc => hij hc.symm)] at hidx
          exact hacc idx b' hidx
      have := ih (acc.set m.j (b ++ [m])) bs
        (fun x hx => hsub x (List.mem_cons_of_mem _ hx)) hacc' h
      refine ⟨?_, this.2⟩
      rw [this.1, List.length_set]

theorem buildBuckets_spec {n : Nat} {ms : List Match} {bs : List (List Match)}
    (h : buildBuckets n ms = some bs) :
    bs.length = n ∧ ∀ idx b, bs[idx]? = some b → ∀ m ∈ b, m ∈ ms ∧ m.j = idx := by
  unfold buildBuckets at h
  have hinit : ∀ idx b, (List.replicate n ([] : List Match))[idx]? = some b →
      ∀ m ∈ b, m ∈ ms ∧ m.j = idx := by
    intro idx b hidx
    have : b = [] := by
      rw [List.getElem?_replicate] at hidx
      split at hidx
      · exact (Option.some_inj.mp hidx).symm
      · simp at hidx
    subst this
    intro m hm
    simp at hm
  have := buildBuckets_go ms (List.replicate n []) bs (fun _ hm => hm) hinit h
  refine ⟨?_, this.2⟩
  rw [this.1, List.length_replicate]

/-! ## Invariant of the finished search -/

theorem StInv_init {pw : List Char} {ms : List Match} {n : Nat} :
    StInv pw ms 0 (List.replicate n ([] : OMap)) := by
  intro k gk hk
  have hgk : gk = [] := by
    rw [List.getElem?_replicate] at hk
    split at hk
    · exact (Option.some_inj.mp hk).symm
    · simp at hk
  subst hgk
  exact ⟨by simp, fun hne => absurd rfl hne, by simp⟩

theorem mainFold_preserves {stats : AdjacencyStats} {pw : List Char} {ea : Bool}
    {ms : List Match}
    (hvalid : ∀ m ∈ ms, m.i ≤ m.j ∧ m.token = slice pw m.i m.j) :
    ∀ (bss : List (List Match)) (k0 : Nat) (opt opt' : Optimal),
    StInv pw ms k0 opt →
    (∀ idx b, bss[idx]? = some b → ∀ m ∈ b, m ∈ ms ∧ m.j = k0 + idx) →
    List.foldlM (fun o kb => processIndex stats pw ea o kb.1 kb.2) opt (bss.enumFrom k0)
      = some opt' →
    StInv pw ms (k0 + bss.length) opt' := by
  intro bss
  induction bss with
  | nil =>
    intro k0 opt opt' hInv _ h
    rw [show List.enumFrom k0 ([] : List (List Match)) = [] from rfl, List.foldlM_nil] at h
    have := Option.some_inj.mp h
    subst this
    simpa using hInv
  | cons b rest ih =>
    intro k0 opt opt' hInv hbuckets h
    rw [show List.enumFrom k0 (b :: rest) = (k0, b) :: List.enumFrom (k0 + 1) rest from rfl,
        List.foldlM_cons] at h
    cases hp : processIndex stats pw ea opt k0 b with
    | none => rw [hp] at h; simp at h
    | some opt1 =>
      rw [hp] at h
      simp only [Option.bind_eq_bind, Option.bind_some] at h
      have hb0 : ∀ m ∈ b, m ∈ ms ∧ m.j = k0 := by
        have h0 := hbuckets 0 b (by rw [List.getElem?_cons_zero])
        intro m hm
        obtain ⟨h1, h2⟩ := h0 m hm
        exact ⟨h1, by omega⟩
      have hInv1 := processIndex_preserves hInv hb0 hvalid hp
      have hrest : ∀ idx b', rest[idx]? = some b' → ∀ m ∈ b', m ∈ ms ∧ m.j = (k0 + 1) + idx := by
        intro idx b' hb'
        have h0 := hbuckets (idx + 1) b' (by rw [List.getElem?_cons_succ]; exact hb')
        intro m hm
        obtain ⟨h1, h2⟩ := h0 m hm
        exact ⟨h1, by omega⟩
      have hfin := ih (k0 + 1) opt1 opt' hInv1 hrest h
      have hK : k0 + (b :: rest).length = (k0 + 1) + rest.length := by
        simp [List.length_cons]
        omega
      rw [hK]
      exact hfin

theorem mainDP_inv {stats : AdjacencyStats} {pw : List Char} {ea : Bool}
    {ms : List Match} {bss : List (List Match)} {opt : Optimal}
    (hvalid : ∀ m ∈ ms, m.i ≤ m.j ∧ m.token = slice pw m.i m.j)
    (hbuckets : ∀ idx b, bss[idx]? = some b → ∀ m ∈ b, m ∈ ms ∧ m.j = idx)
    (h : mainDP stats pw ea bss = some opt) :
    StInv pw ms bss.length opt := by
  unfold mainDP at h
  have henum : bss.enum = bss.enumFrom 0 := rfl
  rw [henum] at h
  have := mainFold_preserves hvalid bss 0 (List.replicate pw.length []) opt
    StInv_init (by simpa using hbuckets) h
  simpa using this

/-! ## The unwound sequence is an exact cover -/

/-- `Cover pw nobf k seq`: `seq` is a gap-free, overlap-free chain of
matches covering exactly `pw[0..=k]`, built back-to-front the way `unwind`
builds it; under `nobf`, a bruteforce match is never chained directly onto
another bruteforce match. -/
inductive Cover (pw : List Char) (nobf : Prop) : Nat → List Match → Prop where
  | base (m : Match) (h0 : m.i = 0) (ht : m.token = slice pw 0 m.j) :
      Cover pw nobf m.j [m]
  | snoc (seq : List Match) (m prev : Match)
      (hc : Cover pw nobf (m.i - 1) seq) (hi : 0 < m.i) (hij : m.i ≤ m.j)
      (ht : m.token = slice pw m.i m.j) (hlast : seq.getLast? = some prev)
      (hbf : nobf → m.pattern = "bruteforce" → prev.pattern ≠ "bruteforce") :
      Cover pw nobf m.j (seq ++ [m])

theorem Cover.ne_nil {pw : List Char} {nobf : Prop} {k : Nat} {seq : List Match}
    (h : Cover pw nobf k seq) : seq ≠ [] := by
  cases h with
  | base m h0 ht => simp
  | snoc seq m prev hc hi hij ht hlast hbf => simp

theorem Cover.head_i {pw : List Char} {nobf : Prop} {k : Nat} {seq : List Match}
    (h : Cover pw nobf k seq) : ∃ m0, seq.head? = some m0 ∧ m0.i = 0 := by
  induction h with
  | base m h0 ht => exact ⟨m, rfl, h0⟩
  | snoc seq m prev hc hi hij ht hlast hbf ih =>
    obtain ⟨m0, hh, h0⟩ := ih
    refine ⟨m0, ?_, h0⟩
    cases seq with
    | nil => simp at hh
    | cons a rest => simpa using hh

theorem Cover.last_j {pw : List Char} {nobf : Prop} {k : Nat} {seq : List Match}
    (h : Cover pw nobf k seq) : ∃ mL, seq.getLast? = some mL ∧ mL.j = k := by
  cases h with
  | base m h0 ht => exact ⟨m, rfl, rfl⟩
  | snoc seq m prev hc hi hij ht hlast hbf =>
    exact ⟨m, List.getLast?_concat seq, rfl⟩

theorem Cover.chain_adj {pw : List Char} {nobf : Prop} {k : Nat} {seq : List Match}
    (h : Cover pw nobf k seq) : List.Chain' (fun a b => a.j + 1 = b.i) seq := by
  induction h with
  | base m h0 ht => simp
  | snoc seq m prev hc hi hij ht hlast hbf ih =>
    rw [List.chain'_append]
    refine ⟨ih, by simp, ?_⟩
    intro x hx y hy
    obtain ⟨mL, hL, hLj⟩ := hc.last_j
    rw [hL, Option.mem_def, Option.some_inj] at hx
    simp only [List.head?_cons, Option.mem_def, Option.some_inj] at hy
    subst hx
    subst hy
    omega

theorem Cover.join_tokens {pw : List Char} {nobf : Prop} {k : Nat} {seq : List Match}
    (h : Cover pw nobf k seq) : (seq.map Match.token).flatten = pw.take (k + 1) := by
  induction h with
  | base m h0 ht =>
    simp only [List.map_cons, List.map_nil, List.flatten_cons, List.flatten_nil,
      List.append_nil]
    rw [ht]
    unfold slice
    simp
  | snoc seq m prev hc hi hij ht hlast hbf ih =>
    rw [List.map_append, List.flatten_append, ih]
    simp only [List.map_cons, List.map_nil, List.flatten_cons, List.flatten_nil,
      List.append_nil]
    rw [ht]
    unfold slice
    have h1 : m.i - 1 + 1 = m.i := by omega
    rw [h1]
    have h2 : m.j + 1 = m.i + (m.j + 1 - m.i) := by omega
    conv_rhs => rw [h2, List.take_add]

theorem Cover.chain_bf {pw : List Char} {nobf : Prop} {k : Nat} {seq : List Match}
    (hn : nobf) (h : Cover pw nobf k seq) :
    List.Chain' (fun a b => ¬(a.pattern = "bruteforce" ∧ b.pattern = "bruteforce")) seq := by
  induction h with
  | base m h0 ht => simp
  | snoc seq m prev hc hi hij ht hlast hbf ih =>
    rw [List.chain'_append]
    refine ⟨ih, by simp, ?_⟩
    intro x hx y hy
    rw [hlast, Option.mem_def, Option.some_inj] at hx
    simp only [List.head?_cons, Option.mem_def, Option.some_inj] at hy
    subst hx
    subst hy
    intro ⟨hxp, hyp⟩
    exact hbf hn hyp hxp

/-- The flattened entry invariant used by the unwind walk. -/
def InvF (pw : List Char) (ms : List Match) (opt : Optimal) : Prop :=
  ∀ k gk, opt[k]? = some gk → ∀ p ∈ gk, EntryOK pw ms opt k p.1 p.2

theorem StInv.toInvF {pw : List Char} {ms : List Match} {K : Nat} {opt : Optimal}
    (h : StInv pw ms K opt) : InvF pw ms opt :=
  fun k gk hk => (h k gk hk).2.2

theorem unwindLoop_cover {pw : List Char} {ms : List Match} {opt : Optimal}
    (hInv : InvF pw ms opt) :
    ∀ (fuel k l : Nat) (acc seq : List Match),
    unwindLoop opt fuel k l acc = some seq →
    ∃ seq0 gk e, opt[k]? = some gk ∧ lookupA l gk = some e ∧
      seq = seq0 ++ acc ∧ Cover pw (NoBFIn ms) k seq0 ∧ seq0.getLast? = some e.m := by
  intro fuel
  induction fuel with
  | zero => intro k l acc seq h; simp [unwindLoop] at h
  | succ fuel ih =>
    intro k l acc seq h
    unfold unwindLoop at h
    cases hgk : opt[k]? with
    | none => rw [hgk] at h; simp at h
    | some gk =>
      rw [hgk] at h
      dsimp only [] at h
      cases he : lookupA l gk with
      | none => rw [he] at h; simp at h
      | some e =>
        rw [he] at h
        dsimp only [] at h
        have hOK : EntryOK pw ms opt k l e := hInv k gk hgk (l, e) (lookupA_mem he)
        obtain ⟨hj, hik, hl1, htok, hpred⟩ := hOK
        by_cases hi : e.m.i = 0
        · rw [if_pos hi] at h
          have hseq := Option.some_inj.mp h
          refine ⟨[e.m], gk, e, rfl, he, by rw [← hseq]; rfl, ?_, rfl⟩
          have hcov : Cover pw (NoBFIn ms) e.m.j [e.m] :=
            Cover.base e.m hi (by rw [htok, hi])
          rw [← hj]
          exact hcov
        · rw [if_neg hi] at h
          obtain ⟨hl2, prev, e2, hp1, hp2, hbf2⟩ := hpred (by omega)
          obtain ⟨seq0, gk', e', hgk', he', hseq, hcov, hlast⟩ :=
            ih (e.m.i - 1) (l - 1) (e.m :: acc) seq h
          have hgkeq : gk' = prev := by
            rw [hp1] at hgk'
            exact (Option.some_inj.mp hgk').symm
          subst hgkeq
          have heeq : e' = e2 := by
            rw [hp2] at he'
            exact (Option.some_inj.mp he').symm
          subst heeq
          refine ⟨seq0 ++ [e.m], gk, e, rfl, he, ?_, ?_, List.getLast?_concat seq0⟩
          · rw [hseq, List.append_assoc]
            rfl
          · have hcov2 : Cover pw (NoBFIn ms) e.m.j (seq0 ++ [e.m]) :=
              Cover.snoc seq0 e.m e'.m hcov (by omega) (by omega)
                htok hlast hbf2
            rw [← hj]
            exact hcov2

theorem unwind_some {n : Nat} {opt : Optimal} {seq : List Match}
    (h : unwind n opt = some seq) :
    ∃ gk l g, opt[n - 1]? = some gk ∧ unwindFindBest gk = some (l, g) ∧
      unwindLoop opt n (n - 1) l [] = some seq := by
  unfold unwind at h
  dsimp only [] at h
  cases h1 : opt[n - 1]? with
  | none => rw [h1] at h; simp at h
  | some gk =>
    rw [h1] at h
    dsimp only [] at h
    cases h2 : unwindFindBest gk with
    | none => rw [h2] at h; simp at h
    | some lg =>
      obtain ⟨l, g⟩ := lg
      rw [h2] at h
      exact ⟨gk, l, g, rfl, h2, h⟩

theorem mgms_some {stats : AdjacencyStats} {pw : List Char} {ms : List Match} {ea : Bool}
    {res : GuessCalculation}
    (h : most_guessable_match_sequence stats pw ms ea = some res) :
    ∃ bs opt seq, buildBuckets pw.length ms = some bs ∧
      mainDP stats pw ea (bs.map sortByI) = some opt ∧
      unwind pw.length opt = some seq ∧ res.sequence = seq := by
  unfold most_guessable_match_sequence at h
  dsimp only [] at h
  cases h1 : buildBuckets pw.length ms with
  | none => rw [h1] at h; simp at h
  | some bs =>
    rw [h1] at h
    dsimp only [] at h
    cases h2 : mainDP stats pw ea (bs.map sortByI) with
    | none => rw [h2] at h; simp at h
    | some opt =>
      rw [h2] at h
      dsimp only [] at h
      cases h3 : unwind pw.length opt with
      | none => rw [h3] at h; simp at h
      | some seq =>
        rw [h3] at h
        dsimp only [] at h
        refine ⟨bs, opt, seq, rfl, h2, h3, ?_⟩
        split at h
        · exact absurd h (by simp)
        · rw [← Option.some_inj.mp h]

/-- C2: for every non-empty password and valid match list, a successful
run returns a sequence that covers the password exactly: it starts at
index 0, ends at `n - 1`, adjacent entries are contiguous, and the
concatenation of the tokens is the password. -/
theorem c2_sequence_exact_cover
    (stats : AdjacencyStats) (pw : List Char) (ms : List Match) (ea : Bool)
    (res : GuessCalculation)
    (hvalid : ∀ m ∈ ms, m.i ≤ m.j ∧ m.token = slice pw m.i m.j)
    (hne : pw ≠ [])
    (hrun : most_guessable_match_sequence stats pw ms ea = some res) :
    res.sequence ≠ [] ∧
    (∃ m0, res.sequence.head? = some m0 ∧ m0.i = 0) ∧
    (∃ mL, res.sequence.getLast? = some mL ∧ mL.j = pw.length - 1) ∧
    List.Chain' (fun a b => a.j + 1 = b.i) res.sequence ∧
    (res.sequence.map Match.token).flatten = pw := by
  obtain ⟨bs, opt, seq, hbk, hdp, huw, hseq⟩ := mgms_some hrun
  obtain ⟨_, hbspec⟩ := buildBuckets_spec hbk
  have hbuckets : ∀ idx b, (bs.map sortByI)[idx]? = some b →
      ∀ m ∈ b, m ∈ ms ∧ m.j = idx := by
    intro idx b hidx
    rw [List.getElem?_map] at hidx
    cases hb0 : bs[idx]? with
    | none => rw [hb0] at hidx; simp at hidx
    | some b0 =>
      rw [hb0] at hidx
      simp only [Option.map_some', Option.some_inj] at hidx
      intro m hm
      rw [← hidx] at hm
      exact hbspec idx b0 hb0 m (mem_sortByI.mp hm)
  have hInv := (mainDP_inv hvalid hbuckets hdp).toInvF
  obtain ⟨gk, l, g, hgk, hbest, hloop⟩ := unwind_some huw
  obtain ⟨seq0, gk', e, hgk', he, hs0, hcov, _⟩ := unwindLoop_cover hInv _ _ _ _ _ hloop
  rw [List.append_nil] at hs0
  subst hs0
  rw [hseq]
  have hnlen : 0 < pw.length := List.length_pos.mpr hne
  refine ⟨hcov.ne_nil, hcov.head_i, hcov.last_j, hcov.chain_adj, ?_⟩
  rw [hcov.join_tokens]
  have : pw.length - 1 + 1 = pw.length := by omega
  rw [this, List.take_length]

/-- C2 witness: the cover properties at a concrete run (password `"ab"`,
no matches — the result is the single full-span bruteforce filler). -/
def c2res : GuessCalculation :=
  { guesses := 100, guesses_log10 := 2,
    sequence := [{ pattern := "bruteforce", token := ['a', 'b'], i := 0, j := 1,
                   guesses := some 100 }] }

theorem c2_witness :
    c2res.sequence ≠ [] ∧
    (∃ m0, c2res.sequence.head? = some m0 ∧ m0.i = 0) ∧
    (∃ mL, c2res.sequence.getLast? = some mL ∧ mL.j = (['a', 'b'] : List Char).length - 1) ∧
    List.Chain' (fun a b => a.j + 1 = b.i) c2res.sequence ∧
    (c2res.sequence.map Match.token).flatten = ['a', 'b'] :=
  c2_sequence_exact_cover stats0 ['a', 'b'] [] true c2res
    (by intro m hm; simp at hm) (by simp) (by decide)

/-- C8 (amended): when no *input* match carries the tag `"bruteforce"`
(the matcher never produces it — the tag belongs to the core's own
fillers), no two adjacent entries of the returned sequence are both
bruteforce.  (`c8_counterexample` shows the restriction is necessary:
a caller may pass bruteforce-tagged matches with cached guesses, and the
main loop extends bruteforce-ending sequences by them without the
adjacency check.) -/
theorem c8_no_adjacent_bruteforce
    (stats : AdjacencyStats) (pw : List Char) (ms : List Match) (ea : Bool)
    (res : GuessCalculation)
    (hvalid : ∀ m ∈ ms, m.i ≤ m.j ∧ m.token = slice pw m.i m.j)
    (hnb : ∀ m ∈ ms, m.pattern ≠ "bruteforce")
    (hrun : most_guessable_match_sequence stats pw ms ea = some res) :
    List.Chain' (fun a b => ¬(a.pattern = "bruteforce" ∧ b.pattern = "bruteforce"))
      res.sequence := by
  obtain ⟨bs, opt, seq, hbk, hdp, huw, hseq⟩ := mgms_some hrun
  obtain ⟨_, hbspec⟩ := buildBuckets_spec hbk
  have hbuckets : ∀ idx b, (bs.map sortByI)[idx]? = some b →
      ∀ m ∈ b, m ∈ ms ∧ m.j = idx := by
    intro idx b hidx
    rw [List.getElem?_map] at hidx
    cases hb0 : bs[idx]? with
    | none => rw [hb0] at hidx; simp at hidx
    | some b0 =>
      rw [hb0] at hidx
      simp only [Option.map_some', Option.some_inj] at hidx
      intro m hm
      rw [← hidx] at hm
      exact hbspec idx b0 hb0 m (mem_sortByI.mp hm)
  have hInv := (mainDP_inv hvalid hbuckets hdp).toInvF
  obtain ⟨gk, l, g, hgk, hbest, hloop⟩ := unwind_some huw
  obtain ⟨seq0, gk', e, hgk', he, hs0, hcov, _⟩ := unwindLoop_cover hInv _ _ _ _ _ hloop
  rw [List.append_nil] at hs0
  subst hs0
  rw [hseq]
  exact hcov.chain_bf hnb

/-- C8 witness: the amended theorem at a concrete run (password `"a"`,
no matches). -/
def c8res : GuessCalculation :=
  { guesses := 11, guesses_log10 := 1,
    sequence := [{ pattern := "bruteforce", token := ['a'], i := 0, j := 0,
                   guesses := some 11 }] }

theorem c8_witness :
    List.Chain' (fun a b => ¬(a.pattern = "bruteforce" ∧ b.pattern = "bruteforce"))
      c8res.sequence :=
  c8_no_adjacent_bruteforce stats0 ['a'] [] true c8res
    (by intro m hm; simp at hm) (by intro m hm; simp at hm) (by decide)

/-- Two caller-supplied matches tagged `"bruteforce"` with cached guesses:
the main loop chains them directly. -/
def c8A : Match := { pattern := "bruteforce", token := ['a'], i := 0, j := 0,
                     guesses := some 1 }
def c8B : Match := { pattern := "bruteforce", token := ['b'], i := 1, j := 1,
                     guesses := some 1 }

/-- C8 counterexample: with caller-supplied bruteforce-tagged matches —
legal inputs per the data model, which lists `bruteforce` among the
pattern tags — the returned sequence contains two adjacent bruteforce
entries, so the claim does not hold for *every* valid input. -/
theorem c8_counterexample :
    most_guessable_match_sequence stats0 ['a', 'b'] [c8A, c8B] true =
      some { guesses := 2, guesses_log10 := 0, sequence := [c8A, c8B] } ∧
    ¬ List.Chain' (fun a b => ¬(a.pattern = "bruteforce" ∧ b.pattern = "bruteforce"))
      [c8A, c8B] := by
  constructor
  · decide
  · intro hch
    have hR := (List.chain'_cons.mp hch).1
    exact hR ⟨rfl, rfl⟩

end Scoring
